import Mathlib

/-!
# Fixed-capacity linear-probing hash table (`src/Source.cpp`)

A shallow embedding of the class template `HashTable<KeyType, ValueType>`.

* `std::vector` members become `List`s; an indexed access outside the vector
  (undefined behaviour in C++) is the fault `Fault.outOfRange`.
* `size_t` values are natural numbers; the two places where the counter is
  stepped (`++current_size`, `--current_size`) wrap modulo `SIZE_MOD = 2 ^ 64`.
  `(index + 1) % capacity` cannot wrap: `index` was just used to read a vector
  element, so `index + 1` is at most the vector's size.
* `std::hash<KeyType>{}` is a parameter `h : K → Nat`.
* `x % capacity` with `capacity = 0` (undefined behaviour) is the fault
  `Fault.modByZero`.
* The three `while` loops are recursive functions over a fuel counter; running
  out of fuel is the fault `Fault.noFuel`.  The public operations run their
  loop with `capacity` units of fuel, and the theorems below show that on a
  well-formed table this fault never occurs.
* `retrieve` takes the caller's `value` variable and returns the boolean
  together with the content of that variable after the call.
* `KeyType`'s `operator==` is decidable equality on `K`; value-initialised
  slots hold `default`.  The message written to `std::cerr` by a full `insert`
  is not part of the model.

After the source's own functions come the notions the theorems are stated
with: the walk `probe` that the three loops share, well-formedness `WF`,
reachability `Reachable`, sequences of calls (`insertAll`, `run`), and the
reference bounded map (`refInsert`, `refLookup`) that insert-only runs are
compared with.
-/

/-- One more than the largest value of `size_t`. -/
def SIZE_MOD : Nat := 2 ^ 64

/-- Ways in which a call has no defined result. -/
inductive Fault where
  | modByZero
  | outOfRange
  | noFuel
  deriving DecidableEq, Repr

/-- The data members of `HashTable<KeyType, ValueType>`. -/
structure HashTable (K V : Type) where
  table : List (K × V)
  occupied : List Bool
  current_size : Nat
  capacity : Nat
  deriving DecidableEq, Repr

namespace HashTable

variable {K V : Type}

/-- The constructor `HashTable(size_t cap)`: `cap` value-initialised slots,
all marked free, and `current_size = 0`. -/
def new [Inhabited K] [Inhabited V] (cap : Nat) : HashTable K V :=
  { table := List.replicate cap (default, default)
    occupied := List.replicate cap false
    current_size := 0
    capacity := cap }

/-- The private member `hash`: `std::hash<KeyType>{}(key) % capacity`. -/
def hash (h : K → Nat) (t : HashTable K V) (key : K) : Except Fault Nat :=
  if t.capacity = 0 then .error .modByZero else .ok (h key % t.capacity)

/-- The `while (occupied[index])` loop of `insert` together with the
statements after it.  The table is only written immediately before a
`return`, so the loop reads the table `t` it was entered with. -/
def insertLoop [DecidableEq K] (t : HashTable K V) (key : K) (value : V)
    (original_index : Nat) : Nat → Nat → Except Fault (Bool × HashTable K V)
  | 0, _ => .error .noFuel
  | fuel + 1, index =>
    match t.occupied[index]? with
    | none => .error .outOfRange
    | some true =>
      match t.table[index]? with
      | none => .error .outOfRange
      | some p =>
        if p.1 = key then
          .ok (true, { t with table := t.table.set index (p.1, value) })
        else
          let index' := (index + 1) % t.capacity
          if index' = original_index then .ok (false, t)
          else insertLoop t key value original_index fuel index'
    | some false =>
      if index < t.table.length then
        .ok (true, { t with
          table := t.table.set index (key, value)
          occupied := t.occupied.set index true
          current_size := (t.current_size + 1) % SIZE_MOD })
      else .error .outOfRange

/-- The member `insert`. -/
def insert [DecidableEq K] (h : K → Nat) (t : HashTable K V) (key : K) (value : V) :
    Except Fault (Bool × HashTable K V) :=
  if t.current_size = t.capacity then .ok (false, t)
  else
    match hash h t key with
    | .error e => .error e
    | .ok index => insertLoop t key value index t.capacity index

/-- The `while (occupied[index])` loop of `retrieve` and the `return false`
after it.  The second component is the caller's `value` after the call. -/
def retrieveLoop [DecidableEq K] (t : HashTable K V) (key : K) (value : V)
    (original_index : Nat) : Nat → Nat → Except Fault (Bool × V)
  | 0, _ => .error .noFuel
  | fuel + 1, index =>
    match t.occupied[index]? with
    | none => .error .outOfRange
    | some true =>
      match t.table[index]? with
      | none => .error .outOfRange
      | some p =>
        if p.1 = key then .ok (true, p.2)
        else
          let index' := (index + 1) % t.capacity
          if index' = original_index then .ok (false, value)
          else retrieveLoop t key value original_index fuel index'
    | some false => .ok (false, value)

/-- The member `retrieve`. -/
def retrieve [DecidableEq K] (h : K → Nat) (t : HashTable K V) (key : K) (value : V) :
    Except Fault (Bool × V) :=
  match hash h t key with
  | .error e => .error e
  | .ok index => retrieveLoop t key value index t.capacity index

/-- The `while (occupied[index])` loop of `remove` and the `return false`
after it. -/
def removeLoop [DecidableEq K] (t : HashTable K V) (key : K)
    (original_index : Nat) : Nat → Nat → Except Fault (Bool × HashTable K V)
  | 0, _ => .error .noFuel
  | fuel + 1, index =>
    match t.occupied[index]? with
    | none => .error .outOfRange
    | some true =>
      match t.table[index]? with
      | none => .error .outOfRange
      | some p =>
        if p.1 = key then
          .ok (true, { t with
            occupied := t.occupied.set index false
            current_size := (t.current_size + SIZE_MOD - 1) % SIZE_MOD })
        else
          let index' := (index + 1) % t.capacity
          if index' = original_index then .ok (false, t)
          else removeLoop t key original_index fuel index'
    | some false => .ok (false, t)

/-- The member `remove`. -/
def remove [DecidableEq K] (h : K → Nat) (t : HashTable K V) (key : K) :
    Except Fault (Bool × HashTable K V) :=
  match hash h t key with
  | .error e => .error e
  | .ok index => removeLoop t key index t.capacity index

/-- The member `size`. -/
abbrev size (t : HashTable K V) : Nat := t.current_size

/-- The member `is_empty`. -/
def is_empty (t : HashTable K V) : Bool := decide (t.current_size = 0)

deriving instance DecidableEq for Except

/-- Where the walk of a `while (occupied[index])` loop stops: at an occupied
slot holding the key, at a free slot, or back at its starting slot. -/
inductive Probe where
  | found (index : Nat)
  | free (index : Nat)
  | wrapped
  deriving DecidableEq, Repr

/-- The walk that the loops of `insert`, `retrieve` and `remove` have in
common (`insertLoop_eq`, `retrieveLoop_eq`, `removeLoop_eq`). -/
def probe [DecidableEq K] (t : HashTable K V) (key : K)
    (original_index : Nat) : Nat → Nat → Except Fault Probe
  | 0, _ => .error .noFuel
  | fuel + 1, index =>
    match t.occupied[index]? with
    | none => .error .outOfRange
    | some true =>
      match t.table[index]? with
      | none => .error .outOfRange
      | some p =>
        if p.1 = key then .ok (.found index)
        else
          let index' := (index + 1) % t.capacity
          if index' = original_index then .ok .wrapped
          else probe t key original_index fuel index'
    | some false => .ok (.free index)

/-- The table after `table[index].second = value`, where `p` is the pair in
slot `index`. -/
@[irreducible] def updated (t : HashTable K V) (index : Nat) (p : K × V) (value : V) : HashTable K V :=
  { t with table := t.table.set index (p.1, value) }

/-- The table after `table[index] = { key, value }; occupied[index] = true;
++current_size`. -/
@[irreducible] def filled (t : HashTable K V) (index : Nat) (key : K) (value : V) : HashTable K V :=
  { t with
    table := t.table.set index (key, value)
    occupied := t.occupied.set index true
    current_size := (t.current_size + 1) % SIZE_MOD }

/-- The table after `occupied[index] = false; --current_size`. -/
@[irreducible] def cleared (t : HashTable K V) (index : Nat) : HashTable K V :=
  { t with
    occupied := t.occupied.set index false
    current_size := (t.current_size + SIZE_MOD - 1) % SIZE_MOD }

/-- What `insert` does once its walk has stopped. -/
def insertAt (t : HashTable K V) (key : K) (value : V) :
    Probe → Except Fault (Bool × HashTable K V)
  | .found index =>
    match t.table[index]? with
    | none => .error .outOfRange
    | some p => .ok (true, updated t index p value)
  | .free index =>
    if index < t.table.length then .ok (true, filled t index key value)
    else .error .outOfRange
  | .wrapped => .ok (false, t)

/-- What `retrieve` does once its walk has stopped. -/
def retrieveAt (t : HashTable K V) (value : V) : Probe → Except Fault (Bool × V)
  | .found index =>
    match t.table[index]? with
    | none => .error .outOfRange
    | some p => .ok (true, p.2)
  | _ => .ok (false, value)

/-- What `remove` does once its walk has stopped. -/
def removeAt (t : HashTable K V) : Probe → Except Fault (Bool × HashTable K V)
  | .found index => .ok (true, cleared t index)
  | _ => .ok (false, t)

/-- The slot at which a walk stopped, if it did not wrap. -/
def Probe.stop : Probe → Option Nat
  | .found index => some index
  | .free index => some index
  | .wrapped => none

/-- The class invariant on the members' shapes. -/
structure WF (t : HashTable K V) : Prop where
  cap_pos : 0 < t.capacity
  cap_lt : t.capacity < SIZE_MOD
  table_len : t.table.length = t.capacity
  occ_len : t.occupied.length = t.capacity

/-- Slot `i` is occupied by a key other than `key`: a walk for `key` steps over it. -/
def Skips (t : HashTable K V) (key : K) (i : Nat) : Prop :=
  t.occupied[i]? = some true ∧ ∃ p, t.table[i]? = some p ∧ p.1 ≠ key

/-- Slot `i` is occupied by `key`. -/
def Holds (t : HashTable K V) (key : K) (i : Nat) : Prop :=
  t.occupied[i]? = some true ∧ ∃ p, t.table[i]? = some p ∧ p.1 = key

/-- The slots a walk examines, in order. -/
def probePath [DecidableEq K] (t : HashTable K V) (key : K)
    (original_index : Nat) : Nat → Nat → List Nat
  | 0, _ => []
  | fuel + 1, index =>
    index ::
      match t.occupied[index]?, t.table[index]? with
      | some true, some p =>
        if p.1 = key then []
        else if (index + 1) % t.capacity = original_index then []
        else probePath t key original_index fuel ((index + 1) % t.capacity)
      | _, _ => []

/-- What a walk's answer says about the table, in terms of offsets from the
starting slot. -/
def ProbeSpec (t : HashTable K V) (key : K) (o d : Nat) : Probe → Prop
  | .found i => ∃ e, d ≤ e ∧ e < t.capacity ∧ i = (o + e) % t.capacity ∧ Holds t key i ∧
      ∀ e', d ≤ e' → e' < e → Skips t key ((o + e') % t.capacity)
  | .free i => ∃ e, d ≤ e ∧ e < t.capacity ∧ i = (o + e) % t.capacity ∧
      t.occupied[i]? = some false ∧
      ∀ e', d ≤ e' → e' < e → Skips t key ((o + e') % t.capacity)
  | .wrapped => ∀ e', d ≤ e' → e' < t.capacity → Skips t key ((o + e') % t.capacity)

/-- The walk an operation on `key` performs: from `hash(key)`, with `capacity`
units of fuel. -/
def walk [DecidableEq K] (h : K → Nat) (t : HashTable K V) (key : K) : Except Fault Probe :=
  probe t key (h key % t.capacity) t.capacity (h key % t.capacity)

/-- The slots examined by the walk of an operation on `key`. -/
def walkPath [DecidableEq K] (h : K → Nat) (t : HashTable K V) (key : K) : List Nat :=
  probePath t key (h key % t.capacity) t.capacity (h key % t.capacity)

/-- The counter equals the number of `true` entries of the occupancy array. -/
def Counted (t : HashTable K V) : Prop := t.current_size = t.occupied.count true

/-- Tables that a client can obtain: constructed with a capacity of at least
one (a `size_t`), then acted on by `insert`, `retrieve` and `remove`. -/
inductive Reachable [DecidableEq K] [Inhabited K] [Inhabited V] (h : K → Nat) :
    HashTable K V → Prop
  | new (cap : Nat) (hpos : 1 ≤ cap) (hlt : cap < SIZE_MOD) : Reachable h (HashTable.new cap)
  | insert {t t' : HashTable K V} {key : K} {value : V} {b : Bool} :
      Reachable h t → HashTable.insert h t key value = .ok (b, t') → Reachable h t'
  | retrieve {t : HashTable K V} {key : K} {value : V} {r : Bool × V} :
      Reachable h t → HashTable.retrieve h t key value = .ok r → Reachable h t
  | remove {t t' : HashTable K V} {key : K} {b : Bool} :
      Reachable h t → HashTable.remove h t key = .ok (b, t') → Reachable h t'

/-- Some occupied slot holds `key`. -/
def Stored (t : HashTable K V) (key : K) : Prop := ∃ i, Holds t key i

/-- Call `insert` on each pair in order; the booleans returned, and the table
after the last call. -/
def insertAll [DecidableEq K] (h : K → Nat) :
    HashTable K V → List (K × V) → Except Fault (List Bool × HashTable K V)
  | t, [] => .ok ([], t)
  | t, kv :: rest =>
    match insert h t kv.1 kv.2 with
    | .error e => .error e
    | .ok (b, t') =>
      match insertAll h t' rest with
      | .error e => .error e
      | .ok (bs, t'') => .ok (b :: bs, t'')

/-- A call on the table. -/
inductive Op (K V : Type) where
  | insert (key : K) (value : V)
  | retrieve (key : K) (value : V)
  | remove (key : K)
  deriving DecidableEq, Repr

/-- Perform one call and keep the table it leaves behind (`retrieve` is
`const`, so it leaves the table it was given). -/
def step [DecidableEq K] (h : K → Nat) (t : HashTable K V) : Op K V → Except Fault (HashTable K V)
  | .insert key value =>
    match insert h t key value with
    | .error e => .error e
    | .ok r => .ok r.2
  | .retrieve key value =>
    match retrieve h t key value with
    | .error e => .error e
    | .ok _ => .ok t
  | .remove key =>
    match remove h t key with
    | .error e => .error e
    | .ok r => .ok r.2

/-- Perform a sequence of calls in order. -/
def run [DecidableEq K] (h : K → Nat) : HashTable K V → List (Op K V) → Except Fault (HashTable K V)
  | t, [] => .ok t
  | t, op :: ops =>
    match step h t op with
    | .error e => .error e
    | .ok t' => run h t' ops

/-- The call is neither `remove(key)` nor `insert(key, _)`. -/
def Op.avoids [DecidableEq K] (key : K) : Op K V → Bool
  | .insert k _ => decide (k ≠ key)
  | .retrieve _ _ => true
  | .remove k => decide (k ≠ key)

/-- The call, made on table `t`, is not `insert(key, _)` and, if it is a
`remove` that succeeds, the slot it clears is none of the slots that the walk
for `key` examines on `t`. -/
def spares [DecidableEq K] (h : K → Nat) (key : K) (t : HashTable K V) : Op K V → Bool
  | .insert k _ => decide (k ≠ key)
  | .retrieve _ _ => true
  | .remove k =>
    match walk h t k with
    | .ok (.found i) => decide (i ∉ walkPath h t key)
    | _ => true

/-- Every call of the sequence, made in order starting from `t`, spares `key`. -/
def sparesAll [DecidableEq K] (h : K → Nat) (key : K) : HashTable K V → List (Op K V) → Bool
  | _, [] => true
  | t, op :: ops =>
    spares h key t op &&
      match step h t op with
      | .error _ => true
      | .ok t' => sparesAll h key t' ops

/-- Every key in an occupied slot is found by its walk, at that slot. -/
def AllFound [DecidableEq K] (h : K → Nat) (t : HashTable K V) : Prop :=
  ∀ i p, t.occupied[i]? = some true → t.table[i]? = some p → walk h t p.1 = .ok (.found i)

/-- The call is a `remove`. -/
def Op.isRemove : Op K V → Bool
  | .remove _ => true
  | _ => false

/-- The call, made on table `t`, is not a `remove` that returns `true`. -/
def removeFails [DecidableEq K] (h : K → Nat) (t : HashTable K V) : Op K V → Bool
  | .remove key =>
    match remove h t key with
    | .ok (true, _) => false
    | _ => true
  | _ => true

/-- No `remove` of the sequence, made in order starting from `t`, returns
`true`. -/
def removesFail [DecidableEq K] (h : K → Nat) : HashTable K V → List (Op K V) → Bool
  | _, [] => true
  | t, op :: ops =>
    removeFails h t op &&
      match step h t op with
      | .error _ => true
      | .ok t' => removesFail h t' ops

/-- Reference bounded map (a list of pairs with distinct keys): the value
recorded for `key`, if any. -/
def refLookup [DecidableEq K] (key : K) : List (K × V) → Option V
  | [] => none
  | p :: m => if p.1 = key then some p.2 else refLookup key m

/-- Reference bounded map: set the value of `key`; a key not yet in the map is
added. -/
def refSet [DecidableEq K] (key : K) (value : V) : List (K × V) → List (K × V)
  | [] => [(key, value)]
  | p :: m => if p.1 = key then (key, value) :: m else p :: refSet key value m

/-- Reference bounded map limited to `N` keys: `insert` fails exactly when the
map already holds `N` keys, even for a key it already holds, and otherwise
sets the key's value. -/
def refInsert [DecidableEq K] (N : Nat) (m : List (K × V)) (key : K) (value : V) :
    Bool × List (K × V) :=
  if m.length = N then (false, m) else (true, refSet key value m)

/-- Reference bounded map: a sequence of inserts, with the booleans returned. -/
def refInsertAll [DecidableEq K] (N : Nat) :
    List (K × V) → List (K × V) → List Bool × List (K × V)
  | m, [] => ([], m)
  | m, kv :: rest =>
    ((refInsert N m kv.1 kv.2).1 :: (refInsertAll N (refInsert N m kv.1 kv.2).2 rest).1,
      (refInsertAll N (refInsert N m kv.1 kv.2).2 rest).2)

/-- What `retrieve(key)` answers according to the reference map: the recorded
value, or not found with the caller's `value` untouched. -/
def refRetrieve [DecidableEq K] (m : List (K × V)) (key : K) (value : V) : Bool × V :=
  match refLookup key m with
  | some w => (true, w)
  | none => (false, value)

/-- The table and the reference map agree. -/
structure Agrees [DecidableEq K] (h : K → Nat) (N : Nat) (t : HashTable K V)
    (m : List (K × V)) : Prop where
  wf : WF t
  counted : Counted t
  allFound : AllFound h t
  cap : t.capacity = N
  size_eq : t.current_size = m.length
  nodup : (m.map Prod.fst).Nodup
  retrieve_eq : ∀ key value, retrieve h t key value = .ok (refRetrieve m key value)

theorem insertLoop_eq [DecidableEq K] (t : HashTable K V) (key : K) (value : V) (o : Nat) :
    ∀ fuel index, insertLoop t key value o fuel index
      = (probe t key o fuel index).bind (insertAt t key value) := by
  intro fuel
  induction fuel with
  | zero => intro index; rfl
  | succ n ih =>
    intro index
    unfold insertLoop probe
    cases ho : t.occupied[index]? with
    | none => rfl
    | some b =>
      cases b with
      | false => simp [Except.bind, insertAt, filled]
      | true =>
        cases hp : t.table[index]? with
        | none => rfl
        | some p =>
          by_cases hk : p.1 = key
          · simp [hk, Except.bind, insertAt, hp, updated]
          · by_cases hw : (index + 1) % t.capacity = o
            · simp [hk, hw, Except.bind, insertAt]
            · simp [hk, hw, ih]

theorem retrieveLoop_eq [DecidableEq K] (t : HashTable K V) (key : K) (value : V) (o : Nat) :
    ∀ fuel index, retrieveLoop t key value o fuel index
      = (probe t key o fuel index).bind (retrieveAt t value) := by
  intro fuel
  induction fuel with
  | zero => intro index; rfl
  | succ n ih =>
    intro index
    unfold retrieveLoop probe
    cases ho : t.occupied[index]? with
    | none => rfl
    | some b =>
      cases b with
      | false => simp [Except.bind, retrieveAt]
      | true =>
        cases hp : t.table[index]? with
        | none => rfl
        | some p =>
          by_cases hk : p.1 = key
          · simp [hk, Except.bind, retrieveAt, hp]
          · by_cases hw : (index + 1) % t.capacity = o
            · simp [hk, hw, Except.bind, retrieveAt]
            · simp [hk, hw, ih]

theorem removeLoop_eq [DecidableEq K] (t : HashTable K V) (key : K) (o : Nat) :
    ∀ fuel index, removeLoop t key o fuel index
      = (probe t key o fuel index).bind (removeAt t) := by
  intro fuel
  induction fuel with
  | zero => intro index; rfl
  | succ n ih =>
    intro index
    unfold removeLoop probe
    cases ho : t.occupied[index]? with
    | none => rfl
    | some b =>
      cases b with
      | false => simp [Except.bind, removeAt]
      | true =>
        cases hp : t.table[index]? with
        | none => rfl
        | some p =>
          by_cases hk : p.1 = key
          · simp [hk, Except.bind, removeAt, cleared]
          · by_cases hw : (index + 1) % t.capacity = o
            · simp [hk, hw, Except.bind, removeAt]
            · simp [hk, hw, ih]

theorem offset_inj {c o d e : Nat} (hd : d < c) (he : e < c)
    (h : (o + d) % c = (o + e) % c) : d = e := by
  have h1 : d ≡ e [MOD c] := Nat.ModEq.add_left_cancel' o h
  have h2 : d % c = e % c := h1
  rwa [Nat.mod_eq_of_lt hd, Nat.mod_eq_of_lt he] at h2

theorem offset_succ (c o d : Nat) : ((o + d) % c + 1) % c = (o + (d + 1)) % c := by
  rw [Nat.mod_add_mod]; rfl

theorem offset_wrap {c o d : Nat} (ho : o < c) (hd : d + 1 ≤ c)
    (h : (o + (d + 1)) % c = o) : d + 1 = c := by
  by_contra hne
  have hlt : d + 1 < c := by omega
  have h0 : (o + (d + 1)) % c = (o + 0) % c := by
    rw [h, Nat.add_zero, Nat.mod_eq_of_lt ho]
  have := offset_inj hlt (by omega) h0
  omega

theorem offset_full {c o : Nat} (ho : o < c) : (o + c) % c = o := by
  rw [Nat.add_mod_right, Nat.mod_eq_of_lt ho]

theorem offset_surj {c o j : Nat} (ho : o < c) (hj : j < c) :
    ∃ e, e < c ∧ (o + e) % c = j := by
  by_cases h : o ≤ j
  · exact ⟨j - o, by omega, by rw [Nat.add_sub_cancel' h, Nat.mod_eq_of_lt hj]⟩
  · refine ⟨j + c - o, by omega, ?_⟩
    have : o + (j + c - o) = j + c := by omega
    rw [this, Nat.add_mod_right, Nat.mod_eq_of_lt hj]

theorem probe_spec_aux [DecidableEq K] (t : HashTable K V) (hwf : WF t) (key : K) (o : Nat)
    (ho : o < t.capacity) :
    ∀ fuel d, d + fuel = t.capacity → 0 < fuel →
      ∃ r, probe t key o fuel ((o + d) % t.capacity) = .ok r ∧ ProbeSpec t key o d r := by
  intro fuel
  induction fuel with
  | zero => intro d _ h; omega
  | succ n ih =>
    intro d hd _
    have hi : (o + d) % t.capacity < t.capacity := Nat.mod_lt _ hwf.cap_pos
    have hio : (o + d) % t.capacity < t.occupied.length := by rw [hwf.occ_len]; exact hi
    have hit : (o + d) % t.capacity < t.table.length := by rw [hwf.table_len]; exact hi
    unfold probe
    rw [List.getElem?_eq_getElem hio]
    cases hb : t.occupied[(o + d) % t.capacity] with
    | false =>
      refine ⟨.free _, rfl, d, le_refl _, by omega, rfl, ?_, ?_⟩
      · rw [List.getElem?_eq_getElem hio, hb]
      · intro e' h1 h2; omega
    | true =>
      simp only [List.getElem?_eq_getElem hit]
      by_cases hk : (t.table[(o + d) % t.capacity]).1 = key
      · rw [if_pos hk]
        refine ⟨.found _, rfl, d, le_refl _, by omega, rfl, ⟨?_, _, ?_, hk⟩, ?_⟩
        · rw [List.getElem?_eq_getElem hio, hb]
        · rw [List.getElem?_eq_getElem hit]
        · intro e' h1 h2; omega
      · rw [if_neg hk]
        have hskip : Skips t key ((o + d) % t.capacity) :=
          ⟨by rw [List.getElem?_eq_getElem hio, hb], _, List.getElem?_eq_getElem hit, hk⟩
        simp only [offset_succ]
        by_cases hw : (o + (d + 1)) % t.capacity = o
        · rw [if_pos hw]
          have hc := offset_wrap ho (by omega) hw
          refine ⟨.wrapped, rfl, ?_⟩
          intro e' h1 h2
          have : e' = d := by omega
          subst this; exact hskip
        · rw [if_neg hw]
          have hn : 0 < n := by
            rcases Nat.eq_zero_or_pos n with h0 | h0
            · exfalso; apply hw
              have : d + 1 = t.capacity := by omega
              rw [this]; exact offset_full ho
            · exact h0
          obtain ⟨r, hr, hs⟩ := ih (d + 1) (by omega) hn
          refine ⟨r, hr, ?_⟩
          have hext : ∀ e', d ≤ e' → (d + 1 ≤ e' → Skips t key ((o + e') % t.capacity)) →
              Skips t key ((o + e') % t.capacity) := by
            intro e' h1 h2
            rcases Nat.eq_or_lt_of_le h1 with h | h
            · subst h; exact hskip
            · exact h2 h
          cases r with
          | found i =>
            obtain ⟨e, h1, h2, h3, h4, h5⟩ := hs
            exact ⟨e, by omega, h2, h3, h4, fun e' a b => hext e' a (fun c => h5 e' c b)⟩
          | free i =>
            obtain ⟨e, h1, h2, h3, h4, h5⟩ := hs
            exact ⟨e, by omega, h2, h3, h4, fun e' a b => hext e' a (fun c => h5 e' c b)⟩
          | wrapped =>
            exact fun e' a b => hext e' a (fun c => hs e' c b)

theorem probe_spec [DecidableEq K] (t : HashTable K V) (hwf : WF t) (key : K) (o : Nat)
    (ho : o < t.capacity) :
    ∃ r, probe t key o t.capacity o = .ok r ∧ ProbeSpec t key o 0 r := by
  have h := probe_spec_aux t hwf key o ho t.capacity 0 (by omega) hwf.cap_pos
  rwa [Nat.add_zero, Nat.mod_eq_of_lt ho] at h

theorem not_skips_of_holds {t : HashTable K V} {key : K} {i : Nat}
    (h : Holds t key i) : ¬ Skips t key i := by
  rintro ⟨_, p, hp, hne⟩
  obtain ⟨_, q, hq, he⟩ := h
  rw [hp] at hq; cases hq; exact hne he

theorem not_skips_of_free {t : HashTable K V} {key : K} {i : Nat}
    (h : t.occupied[i]? = some false) : ¬ Skips t key i := by
  rintro ⟨h', _⟩
  rw [h] at h'; cases h'

theorem probe_step_skips [DecidableEq K] {t : HashTable K V} {key : K} {i : Nat}
    (h : Skips t key i) (o fuel : Nat) :
    probe t key o (fuel + 1) i =
      if (i + 1) % t.capacity = o then .ok .wrapped
      else probe t key o fuel ((i + 1) % t.capacity) := by
  obtain ⟨h1, p, h2, h3⟩ := h
  rw [probe]; simp only [h1, h2, if_neg h3]

theorem probe_step_holds [DecidableEq K] {t : HashTable K V} {key : K} {i : Nat}
    (h : Holds t key i) (o fuel : Nat) :
    probe t key o (fuel + 1) i = .ok (.found i) := by
  obtain ⟨h1, p, h2, h3⟩ := h
  rw [probe]; simp only [h1, h2, if_pos h3]

theorem probe_step_free [DecidableEq K] {t : HashTable K V} (key : K) {i : Nat}
    (h : t.occupied[i]? = some false) (o fuel : Nat) :
    probe t key o (fuel + 1) i = .ok (.free i) := by
  rw [probe]; simp only [h]

theorem probePath_step_skips [DecidableEq K] {t : HashTable K V} {key : K} {i : Nat}
    (h : Skips t key i) (o fuel : Nat) :
    probePath t key o (fuel + 1) i =
      i :: if (i + 1) % t.capacity = o then []
        else probePath t key o fuel ((i + 1) % t.capacity) := by
  obtain ⟨h1, p, h2, h3⟩ := h
  rw [probePath]; simp only [h1, h2, if_neg h3]

/-- Every slot is in one of three states for a given key, or cannot be read. -/
theorem slot_cases (t : HashTable K V) (key : K) (i : Nat) :
    Skips t key i ∨ Holds t key i ∨ t.occupied[i]? = some false ∨
      t.occupied[i]? = none ∨ (t.occupied[i]? = some true ∧ t.table[i]? = none) := by
  classical
  cases ho : t.occupied[i]? with
  | none => simp
  | some b =>
    cases b with
    | false => simp
    | true =>
      cases hp : t.table[i]? with
      | none => simp
      | some p =>
        by_cases hk : p.1 = key
        · right; left; exact ⟨ho, p, hp, hk⟩
        · left; exact ⟨ho, p, hp, hk⟩

/-- A walk's result carries over to a second table in which every slot the
walk stepped over is still stepped over: the second walk stops at the same
slot, and what it reports is decided by that slot alone. -/
theorem probe_transfer [DecidableEq K] (t t' : HashTable K V) (key : K) (o : Nat)
    (hc : t'.capacity = t.capacity) :
    ∀ fuel index r, probe t key o fuel index = .ok r →
      (∀ j ∈ probePath t key o fuel index, Skips t key j → Skips t' key j) →
      (∀ i, r.stop = some i → Holds t' key i → probe t' key o fuel index = .ok (.found i)) ∧
      (∀ i, r.stop = some i → t'.occupied[i]? = some false →
        probe t' key o fuel index = .ok (.free i)) ∧
      (r = .wrapped → probe t' key o fuel index = .ok .wrapped) ∧
      (∀ i, r.stop = some i → i ∈ probePath t key o fuel index) := by
  intro fuel
  induction fuel with
  | zero => intro index r h; simp [probe] at h
  | succ n ih =>
    intro index r h hs
    rcases slot_cases t key index with hsk | hho | hfr | hno | ⟨h1, h2⟩
    · have hsk' : Skips t' key index := hs index (by simp [probePath]) hsk
      rw [probe_step_skips hsk] at h
      rw [probe_step_skips hsk', hc]
      rw [probePath_step_skips hsk] at hs ⊢
      by_cases hw : (index + 1) % t.capacity = o
      · rw [if_pos hw] at h ⊢
        cases h
        simp [Probe.stop]
      · simp only [if_neg hw] at h hs ⊢
        have := ih _ r h (fun j hj => hs j (List.mem_cons_of_mem _ hj))
        obtain ⟨a, b, c, d⟩ := this
        exact ⟨a, b, c, fun i hi => List.mem_cons_of_mem _ (d i hi)⟩
    · rw [probe_step_holds hho] at h
      cases h
      refine ⟨?_, ?_, by simp, ?_⟩
      · intro i hi hh; cases hi; exact probe_step_holds hh _ _
      · intro i hi hh; cases hi; exact probe_step_free key hh _ _
      · intro i hi; cases hi; simp [probePath]
    · rw [probe_step_free key hfr] at h
      cases h
      refine ⟨?_, ?_, by simp, ?_⟩
      · intro i hi hh; cases hi; exact probe_step_holds hh _ _
      · intro i hi hh; cases hi; exact probe_step_free key hh _ _
      · intro i hi; cases hi; simp [probePath]
    · rw [probe] at h; simp [hno] at h
    · rw [probe] at h; simp [h1, h2] at h

/-- What a successful walk reports is true of the table (any fuel, any start). -/
theorem probe_sound [DecidableEq K] (t : HashTable K V) (key : K) (o : Nat) :
    ∀ fuel index r, probe t key o fuel index = .ok r →
      (∀ i, r = .found i → Holds t key i) ∧
      (∀ i, r = .free i → t.occupied[i]? = some false) := by
  intro fuel
  induction fuel with
  | zero => intro index r h; simp [probe] at h
  | succ n ih =>
    intro index r h
    rcases slot_cases t key index with hsk | hho | hfr | hno | ⟨h1, h2⟩
    · rw [probe_step_skips hsk] at h
      by_cases hw : (index + 1) % t.capacity = o
      · rw [if_pos hw] at h; cases h; simp
      · rw [if_neg hw] at h; exact ih _ r h
    · rw [probe_step_holds hho] at h
      cases h; simp; exact hho
    · rw [probe_step_free key hfr] at h
      cases h; simp; exact hfr
    · rw [probe] at h; simp [hno] at h
    · rw [probe] at h; simp [h1, h2] at h

theorem hash_ok (h : K → Nat) {t : HashTable K V} (hc : 0 < t.capacity) (key : K) :
    hash h t key = .ok (h key % t.capacity) := by
  unfold hash; rw [if_neg (by omega)]

theorem insert_eq_walk [DecidableEq K] (h : K → Nat) {t : HashTable K V}
    (hc : 0 < t.capacity) (key : K) (value : V) :
    insert h t key value =
      if t.current_size = t.capacity then .ok (false, t)
      else (walk h t key).bind (insertAt t key value) := by
  unfold insert walk; rw [hash_ok h hc]; simp only [insertLoop_eq]

theorem retrieve_eq_walk [DecidableEq K] (h : K → Nat) {t : HashTable K V}
    (hc : 0 < t.capacity) (key : K) (value : V) :
    retrieve h t key value = (walk h t key).bind (retrieveAt t value) := by
  unfold retrieve walk; rw [hash_ok h hc]; simp only [retrieveLoop_eq]

theorem remove_eq_walk [DecidableEq K] (h : K → Nat) {t : HashTable K V}
    (hc : 0 < t.capacity) (key : K) :
    remove h t key = (walk h t key).bind (removeAt t) := by
  unfold remove walk; rw [hash_ok h hc]; simp only [removeLoop_eq]

/-- On a well-formed table the walk always stops with an answer, and the
answer describes the slots from the starting slot onwards. -/
theorem walk_spec [DecidableEq K] (h : K → Nat) {t : HashTable K V} (hwf : WF t) (key : K) :
    ∃ r, walk h t key = .ok r ∧ ProbeSpec t key (h key % t.capacity) 0 r :=
  probe_spec t hwf key _ (Nat.mod_lt _ hwf.cap_pos)

theorem walk_found [DecidableEq K] {h : K → Nat} {t : HashTable K V} {key : K} {i : Nat}
    (hw : walk h t key = .ok (.found i)) : Holds t key i :=
  (probe_sound t key _ _ _ _ hw).1 i rfl

theorem walk_free [DecidableEq K] {h : K → Nat} {t : HashTable K V} {key : K} {i : Nat}
    (hw : walk h t key = .ok (.free i)) : t.occupied[i]? = some false :=
  (probe_sound t key _ _ _ _ hw).2 i rfl

theorem holds_lt {t : HashTable K V} {key : K} {i : Nat} (hh : Holds t key i) :
    i < t.occupied.length ∧ i < t.table.length := by
  obtain ⟨h1, p, h2, _⟩ := hh
  exact ⟨(List.getElem?_eq_some.1 h1).1, (List.getElem?_eq_some.1 h2).1⟩

theorem updated_table (t : HashTable K V) (i : Nat) (p : K × V) (v : V) :
    (updated t i p v).table = t.table.set i (p.1, v) := by unfold updated; rfl

theorem updated_occupied (t : HashTable K V) (i : Nat) (p : K × V) (v : V) :
    (updated t i p v).occupied = t.occupied := by unfold updated; rfl

theorem updated_current_size (t : HashTable K V) (i : Nat) (p : K × V) (v : V) :
    (updated t i p v).current_size = t.current_size := by unfold updated; rfl

theorem updated_capacity (t : HashTable K V) (i : Nat) (p : K × V) (v : V) :
    (updated t i p v).capacity = t.capacity := by unfold updated; rfl

theorem filled_table (t : HashTable K V) (i : Nat) (k : K) (v : V) :
    (filled t i k v).table = t.table.set i (k, v) := by unfold filled; rfl

theorem filled_occupied (t : HashTable K V) (i : Nat) (k : K) (v : V) :
    (filled t i k v).occupied = t.occupied.set i true := by unfold filled; rfl

theorem filled_current_size (t : HashTable K V) (i : Nat) (k : K) (v : V) :
    (filled t i k v).current_size = (t.current_size + 1) % SIZE_MOD := by unfold filled; rfl

theorem filled_capacity (t : HashTable K V) (i : Nat) (k : K) (v : V) :
    (filled t i k v).capacity = t.capacity := by unfold filled; rfl

theorem cleared_table (t : HashTable K V) (i : Nat) :
    (cleared t i).table = t.table := by unfold cleared; rfl

theorem cleared_occupied (t : HashTable K V) (i : Nat) :
    (cleared t i).occupied = t.occupied.set i false := by unfold cleared; rfl

theorem cleared_current_size (t : HashTable K V) (i : Nat) :
    (cleared t i).current_size = (t.current_size + SIZE_MOD - 1) % SIZE_MOD := by
  unfold cleared; rfl

theorem cleared_capacity (t : HashTable K V) (i : Nat) :
    (cleared t i).capacity = t.capacity := by unfold cleared; rfl

theorem wf_updated {t : HashTable K V} (hwf : WF t) (i : Nat) (p : K × V) (v : V) :
    WF (updated t i p v) :=
  ⟨by rw [updated_capacity]; exact hwf.cap_pos, by rw [updated_capacity]; exact hwf.cap_lt,
    by simp [updated_table, updated_capacity, hwf.table_len],
    by rw [updated_occupied, updated_capacity]; exact hwf.occ_len⟩

theorem wf_filled {t : HashTable K V} (hwf : WF t) (i : Nat) (k : K) (v : V) :
    WF (filled t i k v) :=
  ⟨by rw [filled_capacity]; exact hwf.cap_pos, by rw [filled_capacity]; exact hwf.cap_lt,
    by simp [filled_table, filled_capacity, hwf.table_len],
    by simp [filled_occupied, filled_capacity, hwf.occ_len]⟩

theorem wf_cleared {t : HashTable K V} (hwf : WF t) (i : Nat) : WF (cleared t i) :=
  ⟨by rw [cleared_capacity]; exact hwf.cap_pos, by rw [cleared_capacity]; exact hwf.cap_lt,
    by rw [cleared_table, cleared_capacity]; exact hwf.table_len,
    by simp [cleared_occupied, cleared_capacity, hwf.occ_len]⟩

/-- Overwriting the value of slot `i` changes no slot's key or flag. -/
theorem skips_updated {t : HashTable K V} {i : Nat} {p : K × V} (hp : t.table[i]? = some p)
    (v : V) (key : K) (j : Nat) : Skips (updated t i p v) key j ↔ Skips t key j := by
  unfold Skips updated
  by_cases hij : i = j
  · subst hij
    have hlt := (List.getElem?_eq_some.1 hp).1
    simp [List.getElem?_set, hlt, hp]
  · simp [List.getElem?_set, hij]

theorem holds_updated {t : HashTable K V} {i : Nat} {p : K × V} (hp : t.table[i]? = some p)
    (v : V) (key : K) (j : Nat) : Holds (updated t i p v) key j ↔ Holds t key j := by
  unfold Holds updated
  by_cases hij : i = j
  · subst hij
    have hlt := (List.getElem?_eq_some.1 hp).1
    simp [List.getElem?_set, hlt, hp]
  · simp [List.getElem?_set, hij]

/-- Filling the free slot `i` leaves every other slot as it was. -/
theorem skips_filled_ne {t : HashTable K V} {i j : Nat} (hij : i ≠ j) (k : K) (v : V) (key : K) :
    Skips (filled t i k v) key j ↔ Skips t key j := by
  unfold Skips filled; simp [List.getElem?_set, hij]

theorem holds_filled_ne {t : HashTable K V} {i j : Nat} (hij : i ≠ j) (k : K) (v : V) (key : K) :
    Holds (filled t i k v) key j ↔ Holds t key j := by
  unfold Holds filled; simp [List.getElem?_set, hij]

theorem holds_filled_self {t : HashTable K V} {i : Nat} (h1 : i < t.occupied.length)
    (h2 : i < t.table.length) (k : K) (v : V) : Holds (filled t i k v) k i := by
  unfold Holds filled; simp [List.getElem?_set, h1, h2]

theorem skips_cleared_ne {t : HashTable K V} {i j : Nat} (hij : i ≠ j) (key : K) :
    Skips (cleared t i) key j ↔ Skips t key j := by
  unfold Skips cleared; simp [List.getElem?_set, hij]

theorem holds_cleared_ne {t : HashTable K V} {i j : Nat} (hij : i ≠ j) (key : K) :
    Holds (cleared t i) key j ↔ Holds t key j := by
  unfold Holds cleared; simp [List.getElem?_set, hij]

theorem free_cleared_self {t : HashTable K V} {i : Nat} (h1 : i < t.occupied.length) :
    (cleared t i).occupied[i]? = some false := by
  unfold cleared; simp [List.getElem?_set, h1]

/-- The walk on a second table of the same capacity, in terms of the first
table's walk (`probe_transfer` for the walk of an operation). -/
theorem walk_transfer [DecidableEq K] (h : K → Nat) (t t' : HashTable K V) {key : K}
    (hc : t'.capacity = t.capacity) {r : Probe} (hw : walk h t key = .ok r)
    (hs : ∀ j ∈ walkPath h t key, Skips t key j → Skips t' key j) :
    (∀ i, r.stop = some i → Holds t' key i → walk h t' key = .ok (.found i)) ∧
    (∀ i, r.stop = some i → t'.occupied[i]? = some false → walk h t' key = .ok (.free i)) ∧
    (r = .wrapped → walk h t' key = .ok .wrapped) ∧
    (∀ i, r.stop = some i → i ∈ walkPath h t key) := by
  have := probe_transfer t t' key (h key % t.capacity) hc t.capacity (h key % t.capacity) r hw hs
  unfold walk walkPath
  rw [hc]; exact this

/-- The guard at the top of `insert`. -/
theorem insert_of_full [DecidableEq K] (h : K → Nat) (t : HashTable K V)
    (hfull : t.current_size = t.capacity) (k : K) (v : V) :
    insert h t k v = .ok (false, t) := by
  unfold insert
  rw [if_pos hfull]

theorem insert_cases [DecidableEq K] (h : K → Nat) {t : HashTable K V} (hwf : WF t)
    (key : K) (value : V) :
    (t.current_size = t.capacity ∧ insert h t key value = .ok (false, t)) ∨
    (t.current_size ≠ t.capacity ∧ ∃ i p, walk h t key = .ok (.found i) ∧
      t.table[i]? = some p ∧ p.1 = key ∧
      insert h t key value = .ok (true, updated t i p value)) ∨
    (t.current_size ≠ t.capacity ∧ ∃ i, walk h t key = .ok (.free i) ∧
      i < t.capacity ∧ insert h t key value = .ok (true, filled t i key value)) ∨
    (t.current_size ≠ t.capacity ∧ walk h t key = .ok .wrapped ∧
      insert h t key value = .ok (false, t)) := by
  rw [insert_eq_walk h hwf.cap_pos]
  by_cases hs : t.current_size = t.capacity
  · left; exact ⟨hs, by rw [if_pos hs]⟩
  · right
    rw [if_neg hs]
    obtain ⟨r, hr, _⟩ := walk_spec h hwf key
    rw [hr]
    cases r with
    | found i =>
      left
      obtain ⟨_, p, hp, hk⟩ := walk_found hr
      exact ⟨hs, i, p, rfl, hp, hk, by simp [Except.bind, insertAt, hp]⟩
    | free i =>
      right; left
      have hf := walk_free hr
      have hlt : i < t.occupied.length := (List.getElem?_eq_some.1 hf).1
      have hlt' : i < t.table.length := by rw [hwf.table_len, ← hwf.occ_len]; exact hlt
      exact ⟨hs, i, rfl, by rw [← hwf.occ_len]; exact hlt,
        by simp [Except.bind, insertAt, hlt']⟩
    | wrapped =>
      right; right
      exact ⟨hs, rfl, rfl⟩

theorem retrieve_cases [DecidableEq K] (h : K → Nat) {t : HashTable K V} (hwf : WF t)
    (key : K) (value : V) :
    (∃ i p, walk h t key = .ok (.found i) ∧ t.table[i]? = some p ∧ p.1 = key ∧
      retrieve h t key value = .ok (true, p.2)) ∨
    ((∀ i, walk h t key ≠ .ok (.found i)) ∧ retrieve h t key value = .ok (false, value)) := by
  rw [retrieve_eq_walk h hwf.cap_pos]
  obtain ⟨r, hr, _⟩ := walk_spec h hwf key
  rw [hr]
  cases r with
  | found i =>
    left
    obtain ⟨_, p, hp, hk⟩ := walk_found hr
    exact ⟨i, p, rfl, hp, hk, by simp [Except.bind, retrieveAt, hp]⟩
  | free i => right; exact ⟨by simp, rfl⟩
  | wrapped => right; exact ⟨by simp, rfl⟩

theorem remove_cases [DecidableEq K] (h : K → Nat) {t : HashTable K V} (hwf : WF t)
    (key : K) :
    (∃ i, walk h t key = .ok (.found i) ∧ remove h t key = .ok (true, cleared t i)) ∨
    ((∀ i, walk h t key ≠ .ok (.found i)) ∧ remove h t key = .ok (false, t)) := by
  rw [remove_eq_walk h hwf.cap_pos]
  obtain ⟨r, hr, _⟩ := walk_spec h hwf key
  rw [hr]
  cases r with
  | found i => left; exact ⟨i, rfl, rfl⟩
  | free i => right; exact ⟨by simp, rfl⟩
  | wrapped => right; exact ⟨by simp, rfl⟩

theorem retrieve_of_found [DecidableEq K] (h : K → Nat) (t : HashTable K V)
    (hc : 0 < t.capacity) {key : K} {i : Nat} (p : K × V)
    (hw : walk h t key = .ok (.found i)) (hp : t.table[i]? = some p) (value : V) :
    retrieve h t key value = .ok (true, p.2) := by
  rw [retrieve_eq_walk h hc, hw]; simp [Except.bind, retrieveAt, hp]

theorem retrieve_of_not_found [DecidableEq K] (h : K → Nat) (t : HashTable K V)
    (hc : 0 < t.capacity) {key : K} {r : Probe}
    (hw : walk h t key = .ok r) (hr : ∀ i, r ≠ .found i) (value : V) :
    retrieve h t key value = .ok (false, value) := by
  rw [retrieve_eq_walk h hc, hw]
  cases r with
  | found i => exact absurd rfl (hr i)
  | free i => rfl
  | wrapped => rfl

/-- After `insert` has written `key` (into a slot that held it or into a free
slot), the walk for `key` stops at that slot. -/
theorem walk_updated_self [DecidableEq K] (h : K → Nat) {t : HashTable K V} {key : K}
    {i : Nat} {p : K × V} (hw : walk h t key = .ok (.found i)) (hp : t.table[i]? = some p)
    (v : V) : walk h (updated t i p v) key = .ok (.found i) :=
  (walk_transfer h t (updated t i p v) (updated_capacity t i p v) hw
    (fun j _ hj => (skips_updated hp v key j).2 hj)).1 i rfl
    ((holds_updated hp v key i).2 (walk_found hw))

theorem walk_filled_self [DecidableEq K] (h : K → Nat) {t : HashTable K V} {key : K}
    {i : Nat} (hw : walk h t key = .ok (.free i)) (hlt : i < t.table.length)
    (v : V) : walk h (filled t i key v) key = .ok (.found i) := by
  have hf := walk_free hw
  refine (walk_transfer h t (filled t i key v) (filled_capacity t i key v) hw ?_).1 i rfl
    (holds_filled_self (List.getElem?_eq_some.1 hf).1 hlt key v)
  intro j _ hj
  by_cases hij : i = j
  · subst hij; exact absurd hj (not_skips_of_free hf)
  · exact (skips_filled_ne hij key v key).2 hj

theorem walk_cleared_self [DecidableEq K] (h : K → Nat) {t : HashTable K V} {key : K}
    {i : Nat} (hw : walk h t key = .ok (.found i)) :
    walk h (cleared t i) key = .ok (.free i) := by
  have hh := walk_found hw
  refine (walk_transfer h t (cleared t i) (cleared_capacity t i) hw ?_).2.1 i rfl
    (free_cleared_self (holds_lt hh).1)
  intro j _ hj
  by_cases hij : i = j
  · subst hij; exact absurd hj (not_skips_of_holds hh)
  · exact (skips_cleared_ne hij key).2 hj

/-- Round trip on any well-formed table. -/
theorem retrieve_after_insert [DecidableEq K] (h : K → Nat) {t t' : HashTable K V}
    (hwf : WF t) {key : K} {value : V}
    (hi : insert h t key value = .ok (true, t')) (value0 : V) :
    WF t' ∧ retrieve h t' key value0 = .ok (true, value) := by
  rcases insert_cases h hwf key value with ⟨_, he⟩ | ⟨_, i, p, hw, hp, hk, he⟩ |
      ⟨_, i, hw, hlt, he⟩ | ⟨_, _, he⟩
  · rw [he] at hi; cases hi
  · rw [he] at hi; cases hi
    have hlt := (List.getElem?_eq_some.1 hp).1
    refine ⟨wf_updated hwf _ _ _, ?_⟩
    exact retrieve_of_found h (updated t i p value) (wf_updated hwf i p value).cap_pos
      (p.1, value) (walk_updated_self h hw hp value)
      (by simp [updated_table, List.getElem?_set, hlt]) value0
  · rw [he] at hi; cases hi
    have hlt' : i < t.table.length := by rw [hwf.table_len]; exact hlt
    refine ⟨wf_filled hwf _ _ _, ?_⟩
    exact retrieve_of_found h (filled t i key value) (wf_filled hwf i key value).cap_pos
      (key, value) (walk_filled_self h hw hlt' value)
      (by simp [filled_table, List.getElem?_set, hlt']) value0
  · rw [he] at hi; cases hi

theorem wf_new [Inhabited K] [Inhabited V] {cap : Nat} (hpos : 1 ≤ cap) (hlt : cap < SIZE_MOD) :
    WF (HashTable.new cap : HashTable K V) :=
  ⟨hpos, hlt, by simp [HashTable.new], by simp [HashTable.new]⟩

theorem counted_new [Inhabited K] [Inhabited V] (cap : Nat) :
    Counted (HashTable.new cap : HashTable K V) := by
  simp [Counted, HashTable.new, List.count_replicate]

theorem count_lt_of_free {l : List Bool} {i : Nat} (h : l[i]? = some false) :
    l.count true < l.length := by
  rcases Nat.lt_or_ge (l.count true) l.length with h1 | h1
  · exact h1
  · exfalso
    have h2 := List.count_eq_length.1 (Nat.le_antisymm (List.count_le_length _ _) h1)
    have h3 := h2 false (List.getElem?_mem h)
    cases h3

theorem count_set_true {l : List Bool} {i : Nat} (h : l[i]? = some false) :
    (l.set i true).count true = l.count true + 1 := by
  obtain ⟨hlt, he⟩ := List.getElem?_eq_some.1 h
  rw [List.count_set _ _ _ _ hlt, he]; simp

theorem count_set_false {l : List Bool} {i : Nat} (h : l[i]? = some true) :
    (l.set i false).count true + 1 = l.count true := by
  obtain ⟨hlt, he⟩ := List.getElem?_eq_some.1 h
  have hpos : 0 < l.count true := List.count_pos_iff.2 (List.getElem?_mem h)
  rw [List.count_set _ _ _ _ hlt, he]; simp; omega

theorem counted_filled {t : HashTable K V} (hwf : WF t) (hc : Counted t) {i : Nat}
    (hf : t.occupied[i]? = some false) (k : K) (v : V) :
    Counted (filled t i k v) ∧ (filled t i k v).current_size = t.current_size + 1 := by
  have h1 := count_lt_of_free hf
  have h2 := hwf.occ_len
  have h3 := hwf.cap_lt
  unfold Counted at hc ⊢
  have h4 : (t.current_size + 1) % SIZE_MOD = t.current_size + 1 :=
    Nat.mod_eq_of_lt (by omega)
  rw [filled_current_size, filled_occupied, h4, count_set_true hf]
  omega

theorem counted_cleared {t : HashTable K V} (hwf : WF t) (hc : Counted t) {i : Nat}
    (hf : t.occupied[i]? = some true) :
    Counted (cleared t i) ∧ (cleared t i).current_size + 1 = t.current_size := by
  have h1 := count_set_false hf
  have h2 := hwf.occ_len
  have h3 := hwf.cap_lt
  have h5 := List.count_le_length true t.occupied
  unfold Counted at hc ⊢
  have h4 : (t.current_size + SIZE_MOD - 1) % SIZE_MOD = t.current_size - 1 := by
    have : t.current_size + SIZE_MOD - 1 = (t.current_size - 1) + SIZE_MOD := by omega
    rw [this, Nat.add_mod_right]
    exact Nat.mod_eq_of_lt (by omega)
  rw [cleared_current_size, cleared_occupied, h4]
  omega

/-- What `insert` leaves behind on a well-formed, counted table. -/
theorem insert_inv [DecidableEq K] (h : K → Nat) {t t' : HashTable K V} (hwf : WF t)
    (hc : Counted t) {key : K} {value : V} {b : Bool}
    (hi : insert h t key value = .ok (b, t')) : WF t' ∧ Counted t' := by
  rcases insert_cases h hwf key value with ⟨_, he⟩ | ⟨_, i, p, hw, hp, hk, he⟩ |
      ⟨_, i, hw, hlt, he⟩ | ⟨_, _, he⟩
  · rw [he] at hi; cases hi; exact ⟨hwf, hc⟩
  · rw [he] at hi; cases hi
    refine ⟨wf_updated hwf _ _ _, ?_⟩
    unfold Counted at hc ⊢
    rw [updated_current_size, updated_occupied]; exact hc
  · rw [he] at hi; cases hi
    exact ⟨wf_filled hwf _ _ _, (counted_filled hwf hc (walk_free hw) _ _).1⟩
  · rw [he] at hi; cases hi; exact ⟨hwf, hc⟩

theorem remove_inv [DecidableEq K] (h : K → Nat) {t t' : HashTable K V} (hwf : WF t)
    (hc : Counted t) {key : K} {b : Bool}
    (hi : remove h t key = .ok (b, t')) : WF t' ∧ Counted t' := by
  rcases remove_cases h hwf key with ⟨i, hw, he⟩ | ⟨_, he⟩
  · rw [he] at hi; cases hi
    exact ⟨wf_cleared hwf _, (counted_cleared hwf hc (walk_found hw).1).1⟩
  · rw [he] at hi; cases hi; exact ⟨hwf, hc⟩

theorem reachable_inv [DecidableEq K] [Inhabited K] [Inhabited V] {h : K → Nat}
    {t : HashTable K V} (hr : Reachable h t) : WF t ∧ Counted t := by
  induction hr with
  | new cap hpos hlt => exact ⟨wf_new hpos hlt, counted_new cap⟩
  | insert _ hi ih => exact insert_inv h ih.1 ih.2 hi
  | retrieve _ _ ih => exact ih
  | remove _ hi ih => exact remove_inv h ih.1 ih.2 hi

/-- C1 (immediate round trip): on every reachable table `insert(k, v)` returns
a result, and if that result is `true` then `retrieve(k)` on the resulting
table returns `true` and yields exactly `v`. -/
theorem insert_then_retrieve [DecidableEq K] [Inhabited K] [Inhabited V] (h : K → Nat)
    (t : HashTable K V) (hr : Reachable h t) (k : K) (v : V) :
    (∃ b t', insert h t k v = .ok (b, t')) ∧
    ∀ t', insert h t k v = .ok (true, t') →
      ∀ value, retrieve h t' k value = .ok (true, v) := by
  have hwf := (reachable_inv hr).1
  constructor
  · rcases insert_cases h hwf k v with ⟨_, he⟩ | ⟨_, i, p, _, _, _, he⟩ |
      ⟨_, i, _, _, he⟩ | ⟨_, _, he⟩ <;> exact ⟨_, _, he⟩
  · intro t' hi value
    exact (retrieve_after_insert h hwf hi value).2

theorem insert_then_retrieve_witness :
    retrieve (fun n : Nat => n) (⟨[(0, 0), (4, 7), (0, 0)], [false, true, false], 1, 3⟩ :
      HashTable Nat Nat) 4 0 = .ok (true, 7) :=
  (insert_then_retrieve (fun n : Nat => n) (HashTable.new 3)
    (Reachable.new 3 (by decide) (by decide)) 4 7).2
    ⟨[(0, 0), (4, 7), (0, 0)], [false, true, false], 1, 3⟩ (by decide) 0

/-- C4 (insert on a full table): whenever `size() == capacity`, `insert(k, v)`
returns `false` and hands back the table exactly as it was (slot array,
occupancy array and counter), whether or not `k` is stored in it. -/
theorem insert_full [DecidableEq K] (h : K → Nat) (t : HashTable K V)
    (hfull : t.size = t.capacity) (k : K) (v : V) :
    insert h t k v = .ok (false, t) :=
  insert_of_full h t hfull k v

theorem insert_full_witness :
    insert (fun n : Nat => n) (⟨[(1, 10)], [true], 1, 1⟩ : HashTable Nat Nat) 1 99
      = .ok (false, ⟨[(1, 10)], [true], 1, 1⟩) :=
  insert_full (fun n : Nat => n) ⟨[(1, 10)], [true], 1, 1⟩ rfl 1 99

/-- C7 (empty-table queries): a freshly constructed table of capacity at least
one is empty, has size 0, and both `retrieve(k)` and `remove(k)` return
`false`, leaving the caller's value and the table untouched. -/
theorem new_queries [DecidableEq K] [Inhabited K] [Inhabited V] (h : K → Nat) (cap : Nat)
    (hcap : 1 ≤ cap) (k : K) (value : V) :
    (HashTable.new cap : HashTable K V).is_empty = true ∧
    (HashTable.new cap : HashTable K V).size = 0 ∧
    retrieve h (HashTable.new cap : HashTable K V) k value = .ok (false, value) ∧
    remove h (HashTable.new cap : HashTable K V) k = .ok (false, HashTable.new cap) := by
  have hc : 0 < (HashTable.new cap : HashTable K V).capacity := hcap
  have hlt : h k % cap < cap := Nat.mod_lt _ hcap
  have hf : (HashTable.new cap : HashTable K V).occupied[h k % cap]? = some false := by
    simp [HashTable.new, hlt]
  have hw : walk h (HashTable.new cap : HashTable K V) k = .ok (.free (h k % cap)) := by
    unfold walk
    obtain ⟨n, hn⟩ : ∃ n, (HashTable.new cap : HashTable K V).capacity = n + 1 :=
      ⟨cap - 1, by simp [HashTable.new]; omega⟩
    conv => lhs; arg 4; rw [hn]
    exact probe_step_free k hf _ _
  refine ⟨rfl, rfl, ?_, ?_⟩
  · rw [retrieve_eq_walk h hc, hw]; rfl
  · rw [remove_eq_walk h hc, hw]; rfl

theorem new_queries_witness :
    (HashTable.new 5 : HashTable Nat Nat).is_empty = true ∧
    (HashTable.new 5 : HashTable Nat Nat).size = 0 ∧
    retrieve (fun n : Nat => n) (HashTable.new 5 : HashTable Nat Nat) 12 42 = .ok (false, 42) ∧
    remove (fun n : Nat => n) (HashTable.new 5 : HashTable Nat Nat) 12
      = .ok (false, HashTable.new 5) :=
  new_queries (fun n : Nat => n) 5 (by decide) 12 42

/-- If `retrieve` reports success, its walk stopped at a slot holding the key
and the value it yields is the one stored there. -/
theorem retrieve_true_inv [DecidableEq K] (h : K → Nat) {t : HashTable K V} (hwf : WF t)
    {key : K} {value w : V} (hr : retrieve h t key value = .ok (true, w)) :
    ∃ i p, walk h t key = .ok (.found i) ∧ t.table[i]? = some p ∧ p.1 = key ∧ p.2 = w := by
  rcases retrieve_cases h hwf key value with ⟨i, p, hw, hp, hk, he⟩ | ⟨_, he⟩
  · rw [he] at hr; cases hr; exact ⟨i, p, hw, hp, hk, rfl⟩
  · rw [he] at hr; cases hr

/-- C3 (update semantics): on a reachable table that is not full, inserting a
key that `retrieve` currently finds returns `true`, leaves `size()`, the
occupancy array and the capacity unchanged, and afterwards `retrieve` yields
the new value. -/
theorem insert_present_updates [DecidableEq K] [Inhabited K] [Inhabited V] (h : K → Nat)
    (t : HashTable K V) (hr : Reachable h t) (hroom : t.size < t.capacity)
    (k : K) (value w : V) (hret : retrieve h t k value = .ok (true, w)) (v' : V) :
    ∃ t', insert h t k v' = .ok (true, t') ∧ t'.size = t.size ∧
      t'.occupied = t.occupied ∧ t'.capacity = t.capacity ∧
      ∀ value', retrieve h t' k value' = .ok (true, v') := by
  have hwf := (reachable_inv hr).1
  have hne : t.current_size ≠ t.capacity := Nat.ne_of_lt hroom
  obtain ⟨i, p, hw, hp, hk, _⟩ := retrieve_true_inv h hwf hret
  have hi : insert h t k v' = .ok (true, updated t i p v') := by
    rw [insert_eq_walk h hwf.cap_pos, if_neg hne, hw]
    simp [Except.bind, insertAt, hp]
  exact ⟨updated t i p v', hi, updated_current_size t i p v', updated_occupied t i p v',
    updated_capacity t i p v', fun value' => (retrieve_after_insert h hwf hi value').2⟩

theorem insert_present_updates_witness :
    ∃ t', insert (fun n : Nat => n) (⟨[(0, 0), (4, 7), (0, 0)], [false, true, false], 1, 3⟩ :
        HashTable Nat Nat) 4 8 = .ok (true, t') ∧
      t'.size = 1 ∧ t'.occupied = [false, true, false] ∧ t'.capacity = 3 ∧
      ∀ value', retrieve (fun n : Nat => n) t' 4 value' = .ok (true, 8) :=
  insert_present_updates (fun n : Nat => n) ⟨[(0, 0), (4, 7), (0, 0)], [false, true, false], 1, 3⟩
    (Reachable.insert (Reachable.new 3 (by decide) (by decide))
      (by decide : insert (fun n : Nat => n) (HashTable.new 3) 4 7 =
        .ok (true, ⟨[(0, 0), (4, 7), (0, 0)], [false, true, false], 1, 3⟩)))
    (by decide) 4 0 7 (by decide) 8

/-- C5 (removal and size): on a reachable table `remove(k)` returns a result;
if it is `true` the new size plus one is the old size (so the old size was at
least one and the counter did not wrap); if it is `false` the table is handed
back exactly as it was. -/
theorem remove_size [DecidableEq K] [Inhabited K] [Inhabited V] (h : K → Nat)
    (t : HashTable K V) (hr : Reachable h t) (k : K) :
    ∃ b t', remove h t k = .ok (b, t') ∧
      (b = true → t'.size + 1 = t.size) ∧ (b = false → t' = t) := by
  obtain ⟨hwf, hc⟩ := reachable_inv hr
  rcases remove_cases h hwf k with ⟨i, hw, he⟩ | ⟨_, he⟩
  · have hsz : (cleared t i).size + 1 = t.size :=
      (counted_cleared hwf hc (walk_found hw).1).2
    exact ⟨true, cleared t i, he, fun _ => hsz, fun hb => Bool.noConfusion hb⟩
  · exact ⟨false, t, he, fun hb => Bool.noConfusion hb, fun _ => rfl⟩

theorem remove_size_witness :
    ∃ b t', remove (fun n : Nat => n) (⟨[(0, 0), (4, 7), (0, 0)], [false, true, false], 1, 3⟩ :
        HashTable Nat Nat) 4 = .ok (b, t') ∧
      (b = true → t'.size + 1 = 1) ∧
      (b = false → t' = ⟨[(0, 0), (4, 7), (0, 0)], [false, true, false], 1, 3⟩) :=
  remove_size (fun n : Nat => n) ⟨[(0, 0), (4, 7), (0, 0)], [false, true, false], 1, 3⟩
    (Reachable.insert (Reachable.new 3 (by decide) (by decide))
      (by decide : insert (fun n : Nat => n) (HashTable.new 3) 4 7 =
        .ok (true, ⟨[(0, 0), (4, 7), (0, 0)], [false, true, false], 1, 3⟩))) 4

/-- C8 (idempotent removal): on a reachable table, if `remove(k)` returns
`true` then a second `remove(k)` right after it returns `false` and hands the
table back unchanged, so the size after both calls is the original size minus
exactly one. -/
theorem remove_twice [DecidableEq K] [Inhabited K] [Inhabited V] (h : K → Nat)
    (t t' : HashTable K V) (hr : Reachable h t) (k : K)
    (hrem : remove h t k = .ok (true, t')) :
    remove h t' k = .ok (false, t') ∧ t'.size + 1 = t.size := by
  obtain ⟨hwf, hc⟩ := reachable_inv hr
  rcases remove_cases h hwf k with ⟨i, hw, he⟩ | ⟨_, he⟩
  · have hsz : (cleared t i).size + 1 = t.size :=
      (counted_cleared hwf hc (walk_found hw).1).2
    have ht : t' = cleared t i := by
      rw [he] at hrem
      injection hrem with h1
      injection h1 with _ h2
      exact h2.symm
    subst ht
    refine ⟨?_, hsz⟩
    rw [remove_eq_walk h (wf_cleared hwf i).cap_pos, walk_cleared_self h hw]
    simp only [Except.bind, removeAt]
  · rw [he] at hrem
    injection hrem with h1
    injection h1 with h2 _
    exact Bool.noConfusion h2

theorem remove_twice_witness :
    remove (fun n : Nat => n) (⟨[(0, 0), (4, 7), (0, 0)], [false, false, false], 0, 3⟩ :
        HashTable Nat Nat) 4
      = .ok (false, ⟨[(0, 0), (4, 7), (0, 0)], [false, false, false], 0, 3⟩) ∧
    (⟨[(0, 0), (4, 7), (0, 0)], [false, false, false], 0, 3⟩ : HashTable Nat Nat).size + 1
      = (⟨[(0, 0), (4, 7), (0, 0)], [false, true, false], 1, 3⟩ : HashTable Nat Nat).size :=
  remove_twice (fun n : Nat => n) ⟨[(0, 0), (4, 7), (0, 0)], [false, true, false], 1, 3⟩
    ⟨[(0, 0), (4, 7), (0, 0)], [false, false, false], 0, 3⟩
    (Reachable.insert (Reachable.new 3 (by decide) (by decide))
      (by decide : insert (fun n : Nat => n) (HashTable.new 3) 4 7 =
        .ok (true, ⟨[(0, 0), (4, 7), (0, 0)], [false, true, false], 1, 3⟩))) 4
    (by decide)

/-- An answer of the walk satisfies its description (`walk_spec` for a known
answer). -/
theorem walk_spec_of [DecidableEq K] {h : K → Nat} {t : HashTable K V} (hwf : WF t) {key : K}
    {r : Probe} (hw : walk h t key = .ok r) : ProbeSpec t key (h key % t.capacity) 0 r := by
  obtain ⟨r', hr', hs⟩ := walk_spec h hwf key
  rw [hw] at hr'
  injection hr' with hr'
  rw [hr']; exact hs

/-- C9 (remove and retrieve agree on presence): on every well-formed table
state `remove(k)` returns a result; it returns `true` exactly when
`retrieve(k)` on the same state returns `true`; in that case the slot whose
flag it clears is the first slot on the probe sequence of `k` that holds `k`,
the very slot whose value `retrieve(k)` yields, and nothing else changes except
the counter; and on the state left by any `remove(k)`, `retrieve(k)` returns
`false`. -/
theorem remove_agrees_with_retrieve [DecidableEq K] (h : K → Nat) (t : HashTable K V)
    (hwf : WF t) (k : K) (value : V) :
    (∃ b t', remove h t k = .ok (b, t')) ∧
    ((∃ t', remove h t k = .ok (true, t')) ↔ (∃ w, retrieve h t k value = .ok (true, w))) ∧
    (∀ t', remove h t k = .ok (true, t') →
      ∃ i p, ProbeSpec t k (h k % t.capacity) 0 (.found i) ∧ t.table[i]? = some p ∧
        retrieve h t k value = .ok (true, p.2) ∧
        t'.occupied = t.occupied.set i false ∧ t'.table = t.table ∧
        t'.capacity = t.capacity) ∧
    (∀ b t', remove h t k = .ok (b, t') → retrieve h t' k value = .ok (false, value)) := by
  rcases remove_cases h hwf k with ⟨i, hw, he⟩ | ⟨hnf, he⟩
  · obtain ⟨_, p, hp, _⟩ := walk_found hw
    have hret := retrieve_of_found h t hwf.cap_pos p hw hp value
    refine ⟨⟨_, _, he⟩, ⟨fun _ => ⟨_, hret⟩, fun _ => ⟨_, he⟩⟩, ?_, ?_⟩
    · intro t' ht'
      rw [he] at ht'
      injection ht' with h1
      injection h1 with _ h2
      subst h2
      exact ⟨i, p, walk_spec_of hwf hw, hp, hret, cleared_occupied t i, cleared_table t i,
        cleared_capacity t i⟩
    · intro b t' ht'
      rw [he] at ht'
      injection ht' with h1
      injection h1 with _ h2
      subst h2
      exact retrieve_of_not_found h (cleared t i) (wf_cleared hwf i).cap_pos
        (walk_cleared_self h hw) (fun j hj => Probe.noConfusion hj) value
  · obtain ⟨r, hr, _⟩ := walk_spec h hwf k
    have hret : retrieve h t k value = .ok (false, value) :=
      retrieve_of_not_found h t hwf.cap_pos hr
        (fun j hj => hnf j (by rw [hr, hj])) value
    refine ⟨⟨_, _, he⟩, ⟨?_, ?_⟩, ?_, ?_⟩
    · rintro ⟨t', ht'⟩
      rw [he] at ht'
      injection ht' with h1
      injection h1 with h2 _
      exact Bool.noConfusion h2
    · rintro ⟨w, hw⟩
      rw [hret] at hw
      injection hw with h1
      injection h1 with h2 _
      exact Bool.noConfusion h2
    · intro t' ht'
      rw [he] at ht'
      injection ht' with h1
      injection h1 with h2 _
      exact Bool.noConfusion h2
    · intro b t' ht'
      rw [he] at ht'
      injection ht' with h1
      injection h1 with _ h2
      subst h2
      exact hret

theorem remove_agrees_with_retrieve_witness :
    retrieve (fun n : Nat => n) (⟨[(1, 10), (2, 20), (2, 30)], [true, true, false], 2, 3⟩ :
      HashTable Nat Nat) 2 0 = .ok (false, 0) :=
  (remove_agrees_with_retrieve (fun n : Nat => n)
    ⟨[(1, 10), (2, 20), (2, 30)], [true, true, true], 3, 3⟩
    ⟨by decide, by decide, rfl, rfl⟩ 2 0).2.2.2 true
    ⟨[(1, 10), (2, 20), (2, 30)], [true, true, false], 2, 3⟩ (by decide)

/-- A walk that comes back to its starting slot has seen every slot occupied. -/
theorem wrapped_full [DecidableEq K] {h : K → Nat} {t : HashTable K V} (hwf : WF t) {key : K}
    (hw : walk h t key = .ok .wrapped) : t.occupied.count true = t.capacity := by
  have hs : ∀ e', 0 ≤ e' → e' < t.capacity →
      Skips t key ((h key % t.capacity + e') % t.capacity) := walk_spec_of hwf hw
  rw [← hwf.occ_len]
  apply List.count_eq_length.2
  intro b hb
  obtain ⟨j, hj, hbj⟩ := List.getElem_of_mem hb
  rw [hwf.occ_len] at hj
  obtain ⟨e, he, hej⟩ := offset_surj (Nat.mod_lt (h key) hwf.cap_pos) hj
  have h1 := (hs e (Nat.zero_le _) he).1
  rw [hej] at h1
  have h2 : t.occupied[j]? = some b := by
    rw [List.getElem?_eq_some]; exact ⟨by rw [hwf.occ_len]; exact hj, hbj⟩
  rw [h1] at h2
  injection h2

/-- On a well-formed, counted table that is not full, `insert` of a key that
is not stored fills a free slot. -/
theorem insert_fresh [DecidableEq K] (h : K → Nat) {t : HashTable K V} (hwf : WF t)
    (hc : Counted t) {key : K} (hns : ¬ Stored t key) (hroom : t.current_size < t.capacity)
    (value : V) :
    ∃ i, walk h t key = .ok (.free i) ∧ i < t.capacity ∧
      insert h t key value = .ok (true, filled t i key value) := by
  rcases insert_cases h hwf key value with ⟨hf, _⟩ | ⟨_, i, p, hw, _, _, _⟩ |
      ⟨_, i, hw, hlt, he⟩ | ⟨_, hw, _⟩
  · omega
  · exact absurd ⟨i, walk_found hw⟩ hns
  · exact ⟨i, hw, hlt, he⟩
  · have := wrapped_full hwf hw
    unfold Counted at hc
    omega

theorem stored_filled {t : HashTable K V} {i : Nat} {k : K} {v : V} {key : K}
    (hs : Stored (filled t i k v) key) : Stored t key ∨ key = k := by
  classical
  obtain ⟨j, hj⟩ := hs
  by_cases hij : i = j
  · subst hij
    right
    obtain ⟨_, p, hp, hk⟩ := hj
    rw [filled_table, List.getElem?_set] at hp
    simp only [if_true] at hp
    split at hp
    · injection hp with hp; rw [← hk, ← hp]
    · cases hp
  · left; exact ⟨j, (holds_filled_ne hij k v key).1 hj⟩

theorem stored_updated {t : HashTable K V} {i : Nat} {p : K × V} (hp : t.table[i]? = some p)
    {v : V} {key : K} (hs : Stored (updated t i p v) key) : Stored t key := by
  obtain ⟨j, hj⟩ := hs
  exact ⟨j, (holds_updated hp v key j).1 hj⟩

theorem stored_cleared {t : HashTable K V} {i : Nat} {key : K}
    (hs : Stored (cleared t i) key) : Stored t key := by
  obtain ⟨j, hj⟩ := hs
  by_cases hij : i = j
  · subst hij
    exfalso
    have h1 := hj.1
    rw [cleared_occupied, List.getElem?_set] at h1
    simp only [if_true] at h1
    split at h1 <;> cases h1
  · exact ⟨j, (holds_cleared_ne hij key).1 hj⟩

theorem not_stored_new [Inhabited K] [Inhabited V] (cap : Nat) (key : K) :
    ¬ Stored (HashTable.new cap : HashTable K V) key := by
  rintro ⟨i, h1, _⟩
  simp only [HashTable.new, List.getElem?_replicate] at h1
  split at h1 <;> cases h1

/-- An `insert` of another key keeps a successful `retrieve` successful, with
the same value. -/
theorem retrieve_insert_other [DecidableEq K] (h : K → Nat) {t t' : HashTable K V}
    (hwf : WF t) {k k' : K} (hne : k ≠ k') {v w value : V} {b : Bool}
    (hret : retrieve h t k' value = .ok (true, w))
    (hi : insert h t k v = .ok (b, t')) (value' : V) :
    retrieve h t' k' value' = .ok (true, w) := by
  obtain ⟨i, p, hw, hp, hk, hpw⟩ := retrieve_true_inv h hwf hret
  have hh := walk_found hw
  rcases insert_cases h hwf k v with ⟨_, he⟩ | ⟨_, j, q, hwj, hq, hqk, he⟩ |
      ⟨_, j, hwj, hlt, he⟩ | ⟨_, _, he⟩
  · rw [he] at hi; injection hi with h1; injection h1 with _ h2; subst h2
    rw [← hpw]; exact retrieve_of_found h t hwf.cap_pos p hw hp value'
  · rw [he] at hi; injection hi with h1; injection h1 with _ h2; subst h2
    have hij : j ≠ i := by
      rintro rfl
      rw [hq] at hp; injection hp with hp
      exact hne (by rw [← hqk, hp, hk])
    have hw' : walk h (updated t j q v) k' = .ok (.found i) :=
      (walk_transfer h t (updated t j q v) (updated_capacity t j q v) hw
        (fun m _ hm => (skips_updated hq v k' m).2 hm)).1 i rfl
        ((holds_updated hq v k' i).2 hh)
    rw [← hpw]
    exact retrieve_of_found h (updated t j q v) (wf_updated hwf j q v).cap_pos p hw'
      (by rw [updated_table, List.getElem?_set_ne hij]; exact hp) value'
  · rw [he] at hi; injection hi with h1; injection h1 with _ h2; subst h2
    have hf := walk_free hwj
    have hocc : ∀ m, t.occupied[m]? = some true → j ≠ m := by
      rintro m hm rfl
      rw [hf] at hm; cases hm
    have hij : j ≠ i := hocc i hh.1
    have hw' : walk h (filled t j k v) k' = .ok (.found i) :=
      (walk_transfer h t (filled t j k v) (filled_capacity t j k v) hw
        (fun m _ hm => (skips_filled_ne (hocc m hm.1) k v k').2 hm)).1 i rfl
        ((holds_filled_ne hij k v k').2 hh)
    rw [← hpw]
    exact retrieve_of_found h (filled t j k v) (wf_filled hwf j k v).cap_pos p hw'
      (by rw [filled_table, List.getElem?_set_ne hij]; exact hp) value'
  · rw [he] at hi; injection hi with h1; injection h1 with _ h2; subst h2
    rw [← hpw]; exact retrieve_of_found h t hwf.cap_pos p hw hp value'

theorem insert_wf [DecidableEq K] (h : K → Nat) {t t' : HashTable K V} (hwf : WF t)
    {key : K} {value : V} {b : Bool} (hi : insert h t key value = .ok (b, t')) : WF t' := by
  rcases insert_cases h hwf key value with ⟨_, he⟩ | ⟨_, i, p, _, _, _, he⟩ |
      ⟨_, i, _, _, he⟩ | ⟨_, _, he⟩ <;>
    (rw [he] at hi; injection hi with h1; injection h1 with _ h2; subst h2)
  · exact hwf
  · exact wf_updated hwf _ _ _
  · exact wf_filled hwf _ _ _
  · exact hwf

theorem insertAll_cons [DecidableEq K] (h : K → Nat) {t t' t'' : HashTable K V} {kv : K × V}
    {rest : List (K × V)} {b : Bool} {bs : List Bool}
    (h1 : insert h t kv.1 kv.2 = .ok (b, t')) (h2 : insertAll h t' rest = .ok (bs, t'')) :
    insertAll h t (kv :: rest) = .ok (b :: bs, t'') := by
  rw [insertAll, h1]; simp only [h2]

theorem insertAll_cons_inv [DecidableEq K] (h : K → Nat) {t t'' : HashTable K V} {kv : K × V}
    {rest : List (K × V)} {bs : List Bool}
    (hi : insertAll h t (kv :: rest) = .ok (bs, t'')) :
    ∃ b t' bs', insert h t kv.1 kv.2 = .ok (b, t') ∧ insertAll h t' rest = .ok (bs', t'') ∧
      bs = b :: bs' := by
  rw [insertAll] at hi
  cases h1 : insert h t kv.1 kv.2 with
  | error e => rw [h1] at hi; cases hi
  | ok r =>
    obtain ⟨b, t'⟩ := r
    rw [h1] at hi
    cases h2 : insertAll h t' rest with
    | error e => simp only [h2] at hi; cases hi
    | ok r2 =>
      obtain ⟨bs', t2⟩ := r2
      simp only [h2] at hi
      injection hi with hi
      injection hi with h3 h4
      subst h4
      exact ⟨b, t', bs', rfl, h2, h3.symm⟩

theorem insertAll_append [DecidableEq K] (h : K → Nat) :
    ∀ (xs ys : List (K × V)) (t t' t'' : HashTable K V) (bs bs' : List Bool),
      insertAll h t xs = .ok (bs, t') → insertAll h t' ys = .ok (bs', t'') →
      insertAll h t (xs ++ ys) = .ok (bs ++ bs', t'') := by
  intro xs
  induction xs with
  | nil =>
    intro ys t t' t'' bs bs' h1 h2
    rw [insertAll] at h1
    injection h1 with h1
    injection h1 with h3 h4
    subst h3; subst h4
    exact h2
  | cons kv rest ih =>
    intro ys t t' t'' bs bs' h1 h2
    obtain ⟨b, t1, bs1, hi, hr, hb⟩ := insertAll_cons_inv h h1
    subst hb
    exact insertAll_cons h hi (ih ys t1 t' t'' bs1 bs' hr h2)

/-- Inserts of other keys keep a successful `retrieve` successful. -/
theorem retrieve_insertAll_other [DecidableEq K] (h : K → Nat) {k' : K} {w : V} :
    ∀ (kvs : List (K × V)) (t t' : HashTable K V) (bs : List Bool), WF t →
      k' ∉ kvs.map Prod.fst →
      (∀ value, retrieve h t k' value = .ok (true, w)) →
      insertAll h t kvs = .ok (bs, t') →
      ∀ value, retrieve h t' k' value = .ok (true, w) := by
  intro kvs
  induction kvs with
  | nil =>
    intro t t' bs _ _ hret hi
    rw [insertAll] at hi
    injection hi with hi
    injection hi with _ h4
    subst h4
    exact hret
  | cons kv rest ih =>
    intro t t' bs hwf hk hret hi
    obtain ⟨b, t1, bs1, h1, hr, _⟩ := insertAll_cons_inv h hi
    have hne : kv.1 ≠ k' := by
      intro he; apply hk; rw [List.map_cons, ← he]; exact List.mem_cons_self _ _
    have hk' : k' ∉ rest.map Prod.fst := by
      intro hm; apply hk; rw [List.map_cons]; exact List.mem_cons_of_mem _ hm
    exact ih t1 t' bs1 (insert_wf h hwf h1) hk'
      (fun value => retrieve_insert_other h hwf hne (hret value) h1 value) hr

/-- Inserting pairwise distinct keys, none of them stored, into a table with
room for all of them: every call returns `true`, the size grows by the number
of keys, and every key is then retrievable with its value. -/
theorem insertAll_fresh [DecidableEq K] (h : K → Nat) :
    ∀ (kvs : List (K × V)) (t : HashTable K V), WF t → Counted t →
      (∀ kv ∈ kvs, ¬ Stored t kv.1) → (kvs.map Prod.fst).Nodup →
      t.current_size + kvs.length ≤ t.capacity →
      ∃ t', insertAll h t kvs = .ok (List.replicate kvs.length true, t') ∧ WF t' ∧
        Counted t' ∧ t'.current_size = t.current_size + kvs.length ∧
        t'.capacity = t.capacity ∧
        (∀ key, Stored t' key → Stored t key ∨ key ∈ kvs.map Prod.fst) ∧
        (∀ kv ∈ kvs, ∀ value, retrieve h t' kv.1 value = .ok (true, kv.2)) := by
  intro kvs
  induction kvs with
  | nil =>
    intro t hwf hc _ _ _
    exact ⟨t, rfl, hwf, hc, rfl, rfl, fun key hs => Or.inl hs,
      fun kv hkv => absurd hkv (List.not_mem_nil _)⟩
  | cons kv rest ih =>
    intro t hwf hc hns hnd hroom
    rw [List.map_cons, List.nodup_cons] at hnd
    rw [List.length_cons] at hroom
    obtain ⟨i, hw, hlt, he⟩ :=
      insert_fresh h hwf hc (hns kv (List.mem_cons_self _ _)) (by omega) kv.2
    have hwf1 := wf_filled hwf i kv.1 kv.2
    obtain ⟨hc1, hsz1⟩ := counted_filled hwf hc (walk_free hw) kv.1 kv.2
    have hns1 : ∀ kv' ∈ rest, ¬ Stored (filled t i kv.1 kv.2) kv'.1 := by
      intro kv' hkv' hs
      rcases stored_filled hs with h1 | h1
      · exact hns kv' (List.mem_cons_of_mem _ hkv') h1
      · exact hnd.1 (by rw [← h1]; exact List.mem_map_of_mem _ hkv')
    obtain ⟨t', hall, hwf', hc', hsz', hcap', hst', hret'⟩ :=
      ih (filled t i kv.1 kv.2) hwf1 hc1 hns1 hnd.2 (by rw [hsz1, filled_capacity]; omega)
    refine ⟨t', ?_, hwf', hc', ?_, ?_, ?_, ?_⟩
    · rw [List.length_cons, List.replicate_succ]
      exact insertAll_cons h he hall
    · rw [hsz', hsz1, List.length_cons]; omega
    · rw [hcap', filled_capacity]
    · intro key hs
      rcases hst' key hs with h1 | h1
      · rcases stored_filled h1 with h2 | h2
        · exact Or.inl h2
        · right; rw [List.map_cons, h2]; exact List.mem_cons_self _ _
      · right; rw [List.map_cons]; exact List.mem_cons_of_mem _ h1
    · intro kv' hkv' value
      rcases List.mem_cons.1 hkv' with h1 | h1
      · subst h1
        exact retrieve_insertAll_other h rest (filled t i kv'.1 kv'.2) t' _ hwf1 hnd.1
          (fun value => (retrieve_after_insert h hwf he value).2) hall value
      · exact hret' kv' h1 value

/-- C6 (capacity exhaustion): inserting `N + 1` pairwise distinct keys in
order into a fresh table of capacity `N ≥ 1`, the first `N` calls all return
`true` and leave `size() == N`, and the last call returns `false` and leaves
the table, hence the size, as it was. -/
theorem capacity_exhaustion [DecidableEq K] [Inhabited K] [Inhabited V] (h : K → Nat)
    (N : Nat) (hN : 1 ≤ N) (hlt : N < SIZE_MOD) (kvs : List (K × V))
    (hlen : kvs.length = N + 1) (hnd : (kvs.map Prod.fst).Nodup) :
    ∃ tN, insertAll h (HashTable.new N) (kvs.take N) = .ok (List.replicate N true, tN) ∧
      tN.size = N ∧
      insertAll h (HashTable.new N) kvs = .ok (List.replicate N true ++ [false], tN) := by
  have hwf : WF (HashTable.new N : HashTable K V) := wf_new hN hlt
  have hc : Counted (HashTable.new N : HashTable K V) := counted_new N
  have htl : (kvs.take N).length = N := by rw [List.length_take]; omega
  have hnd' : ((kvs.take N).map Prod.fst).Nodup := by
    rw [List.map_take]
    exact hnd.sublist (List.take_sublist _ _)
  obtain ⟨tN, hall, _, _, hsz, hcap, _, _⟩ :=
    insertAll_fresh h (kvs.take N) (HashTable.new N) hwf hc
      (fun kv _ => not_stored_new N kv.1) hnd'
      (by rw [htl]; exact Nat.le_of_eq (Nat.zero_add N))
  rw [htl] at hall hsz
  have hsz' : tN.current_size = N := by rw [hsz]; exact Nat.zero_add N
  have hcap' : tN.capacity = N := hcap
  refine ⟨tN, hall, hsz', ?_⟩
  have hdl : (kvs.drop N).length = 1 := by rw [List.length_drop]; omega
  obtain ⟨x, hx⟩ := List.length_eq_one.1 hdl
  have hlast : insertAll h tN [x] = .ok ([false], tN) :=
    insertAll_cons h (insert_of_full h tN (hsz'.trans hcap'.symm) x.1 x.2) rfl
  have := insertAll_append h (kvs.take N) [x] _ _ _ _ _ hall hlast
  rwa [← hx, List.take_append_drop] at this

theorem capacity_exhaustion_witness :
    ∃ tN, insertAll (fun n : Nat => n) (HashTable.new 2) ([(1, 10), (3, 30), (5, 50)].take 2)
        = .ok (List.replicate 2 true, tN) ∧
      tN.size = 2 ∧
      insertAll (fun n : Nat => n) (HashTable.new 2) [(1, 10), (3, 30), (5, 50)]
        = .ok (List.replicate 2 true ++ [false], tN) :=
  capacity_exhaustion (fun n : Nat => n) 2 (by decide) (by decide) [(1, 10), (3, 30), (5, 50)]
    (by decide) (by decide)

theorem remove_of_found [DecidableEq K] (h : K → Nat) {t : HashTable K V}
    (hc : 0 < t.capacity) {key : K} {i : Nat} (hw : walk h t key = .ok (.found i)) :
    remove h t key = .ok (true, cleared t i) := by
  rw [remove_eq_walk h hc, hw]; rfl

/-- A `remove` that clears no slot on the walk for `key` keeps a successful
`retrieve(key)` successful, with the same value. -/
theorem retrieve_remove_spared [DecidableEq K] (h : K → Nat) {t t' : HashTable K V}
    (hwf : WF t) {k key : K} {w value : V} {b : Bool}
    (hret : retrieve h t key value = .ok (true, w))
    (hrem : remove h t k = .ok (b, t'))
    (hsp : ∀ i, walk h t k = .ok (.found i) → i ∉ walkPath h t key) (value' : V) :
    WF t' ∧ retrieve h t' key value' = .ok (true, w) := by
  obtain ⟨i, p, hw, hp, hk, hpw⟩ := retrieve_true_inv h hwf hret
  have hh := walk_found hw
  rcases remove_cases h hwf k with ⟨j, hwj, he⟩ | ⟨_, he⟩
  · rw [he] at hrem; injection hrem with h1; injection h1 with _ h2; subst h2
    have hj := hsp j hwj
    have hmem : i ∈ walkPath h t key :=
      (walk_transfer h t t rfl hw (fun _ _ hm => hm)).2.2.2 i rfl
    have hij : j ≠ i := by rintro rfl; exact hj hmem
    have hw' : walk h (cleared t j) key = .ok (.found i) :=
      (walk_transfer h t (cleared t j) (cleared_capacity t j) hw
        (fun m hm hs => (skips_cleared_ne (by rintro rfl; exact hj hm) key).2 hs)).1 i rfl
        ((holds_cleared_ne hij key).2 hh)
    refine ⟨wf_cleared hwf j, ?_⟩
    rw [← hpw]
    exact retrieve_of_found h (cleared t j) (wf_cleared hwf j).cap_pos p hw'
      (by rw [cleared_table]; exact hp) value'
  · rw [he] at hrem; injection hrem with h1; injection h1 with _ h2; subst h2
    refine ⟨hwf, ?_⟩
    rw [← hpw]; exact retrieve_of_found h t hwf.cap_pos p hw hp value'

/-- One sparing call keeps `retrieve(key)` successful with the same value. -/
theorem step_spares [DecidableEq K] (h : K → Nat) {t : HashTable K V} (hwf : WF t)
    {key : K} {w : V} (hret : ∀ value, retrieve h t key value = .ok (true, w))
    (op : Op K V) (hs : spares h key t op = true) :
    ∃ t', step h t op = .ok t' ∧ WF t' ∧ ∀ value, retrieve h t' key value = .ok (true, w) := by
  cases op with
  | insert k v =>
    have hne : k ≠ key := by simpa [spares] using hs
    have hex : ∃ b t', insert h t k v = .ok (b, t') := by
      rcases insert_cases h hwf k v with ⟨_, he⟩ | ⟨_, i, p, _, _, _, he⟩ |
        ⟨_, i, _, _, he⟩ | ⟨_, _, he⟩ <;> exact ⟨_, _, he⟩
    obtain ⟨b, t', hi⟩ := hex
    refine ⟨t', by simp only [step, hi], insert_wf h hwf hi, ?_⟩
    intro value
    exact retrieve_insert_other h hwf hne (hret value) hi value
  | retrieve k v =>
    have hex : ∃ r, retrieve h t k v = .ok r := by
      rcases retrieve_cases h hwf k v with ⟨_, _, _, _, _, he⟩ | ⟨_, he⟩ <;> exact ⟨_, he⟩
    obtain ⟨r, hr⟩ := hex
    exact ⟨t, by simp only [step, hr], hwf, hret⟩
  | remove k =>
    have hsp : ∀ i, walk h t k = .ok (.found i) → i ∉ walkPath h t key := by
      intro i hi
      simpa [spares, hi] using hs
    have hex : ∃ b t', remove h t k = .ok (b, t') := by
      rcases remove_cases h hwf k with ⟨_, _, he⟩ | ⟨_, he⟩ <;> exact ⟨_, _, he⟩
    obtain ⟨b, t', hi⟩ := hex
    refine ⟨t', by simp only [step, hi], ?_⟩
    have hw := hret w
    exact ⟨(retrieve_remove_spared h hwf hw hi hsp w).1,
      fun value => (retrieve_remove_spared h hwf hw hi hsp value).2⟩

theorem run_spares [DecidableEq K] (h : K → Nat) {key : K} {w : V} :
    ∀ (ops : List (Op K V)) (t : HashTable K V), WF t →
      (∀ value, retrieve h t key value = .ok (true, w)) → sparesAll h key t ops = true →
      ∃ t', run h t ops = .ok t' ∧ WF t' ∧ ∀ value, retrieve h t' key value = .ok (true, w) := by
  intro ops
  induction ops with
  | nil => intro t hwf hret _; exact ⟨t, rfl, hwf, hret⟩
  | cons op ops ih =>
    intro t hwf hret hs
    rw [sparesAll, Bool.and_eq_true] at hs
    obtain ⟨t1, h1, hwf1, hret1⟩ := step_spares h hwf hret op hs.1
    have hs2 := hs.2
    simp only [h1] at hs2
    obtain ⟨t', h2, hwf', hret'⟩ := ih t1 hwf1 hret1 hs2
    exact ⟨t', by rw [run]; simp only [h1]; exact h2, hwf', hret'⟩

/-- C2, as stated, fails: with every key hashing to 0 and capacity 3, insert
keys 1 and 2 (slots 0 and 1); the single later call `remove(1)`, which is
neither `remove(2)` nor `insert(2, _)`, frees slot 0, and `retrieve(2)` then
stops at that free slot and returns `false`. -/
theorem retrieve_persists_counterexample :
    Reachable (fun _ : Nat => 0)
      (⟨[(1, 10), (0, 0), (0, 0)], [true, false, false], 1, 3⟩ : HashTable Nat Nat) ∧
    insert (fun _ : Nat => 0)
      (⟨[(1, 10), (0, 0), (0, 0)], [true, false, false], 1, 3⟩ : HashTable Nat Nat) 2 20
      = .ok (true, ⟨[(1, 10), (2, 20), (0, 0)], [true, true, false], 2, 3⟩) ∧
    ([Op.remove 1] : List (Op Nat Nat)).all (Op.avoids 2) = true ∧
    run (fun _ : Nat => 0)
      (⟨[(1, 10), (2, 20), (0, 0)], [true, true, false], 2, 3⟩ : HashTable Nat Nat)
      [Op.remove 1] = .ok ⟨[(1, 10), (2, 20), (0, 0)], [false, true, false], 1, 3⟩ ∧
    retrieve (fun _ : Nat => 0)
      (⟨[(1, 10), (2, 20), (0, 0)], [false, true, false], 1, 3⟩ : HashTable Nat Nat) 2 0
      = .ok (false, 0) :=
  ⟨Reachable.insert (Reachable.new 3 (by decide) (by decide))
      (by decide : insert (fun _ : Nat => 0) (HashTable.new 3) 1 10 =
        .ok (true, ⟨[(1, 10), (0, 0), (0, 0)], [true, false, false], 1, 3⟩)),
    by decide, by decide, by decide, by decide⟩

/-- C2 (round-trip persistence), amended: on a reachable table, after
`insert(k, v)` has returned `true`, every later sequence of calls in which no
call is `insert(k, _)` and no `remove` clears a slot that the probe for `k`
examines (the slots from `hash(k) mod capacity` up to and including the one
holding `k`, so `remove(k)` is excluded) runs to completion and leaves
`retrieve(k)` returning `true` with value `v`. -/
theorem retrieve_persists [DecidableEq K] [Inhabited K] [Inhabited V] (h : K → Nat)
    (t t' : HashTable K V) (hr : Reachable h t) (k : K) (v : V)
    (hi : insert h t k v = .ok (true, t')) (ops : List (Op K V))
    (hs : sparesAll h k t' ops = true) :
    ∃ t'', run h t' ops = .ok t'' ∧ ∀ value, retrieve h t'' k value = .ok (true, v) := by
  have hwf := (reachable_inv hr).1
  obtain ⟨t'', h1, _, h2⟩ := run_spares h ops t' (insert_wf h hwf hi)
    (fun value => (retrieve_after_insert h hwf hi value).2) hs
  exact ⟨t'', h1, h2⟩

theorem retrieve_persists_witness :
    ∃ t'', run (fun n : Nat => n)
        (⟨[(0, 0), (4, 7), (0, 0)], [false, true, false], 1, 3⟩ : HashTable Nat Nat)
        [Op.insert 5 8, Op.retrieve 4 0, Op.remove 5, Op.remove 9, Op.insert 7 1] = .ok t'' ∧
      ∀ value, retrieve (fun n : Nat => n) t'' 4 value = .ok (true, 7) :=
  retrieve_persists (fun n : Nat => n) (HashTable.new 3)
    ⟨[(0, 0), (4, 7), (0, 0)], [false, true, false], 1, 3⟩
    (Reachable.new 3 (by decide) (by decide)) 4 7 (by decide)
    [Op.insert 5 8, Op.retrieve 4 0, Op.remove 5, Op.remove 9, Op.insert 7 1] (by decide)

/-- C10 (capacity-4 scenario), for every hash function: on a fresh table of
capacity 4 the inserts of (1,"a"), (2,"b"), (3,"c"), (4,"d") all return `true`
and the size is 4; `insert(5,"e")` returns `false` and leaves the table as it
is; `retrieve(2)` yields "b"; `remove(2)` returns `true` and the size is 3;
`retrieve(2)` then returns `false`; `insert(5,"e")` now returns `true`, the
size is 4 again, and `retrieve(5)` yields "e". -/
theorem capacity_four_scenario (h : Int → Nat) (value : String) :
    ∃ t4 t5 t6 : HashTable Int String,
      insertAll h (HashTable.new 4) [(1, "a"), (2, "b"), (3, "c"), (4, "d")]
        = .ok ([true, true, true, true], t4) ∧
      t4.size = 4 ∧
      insert h t4 5 "e" = .ok (false, t4) ∧
      retrieve h t4 2 value = .ok (true, "b") ∧
      remove h t4 2 = .ok (true, t5) ∧
      t5.size = 3 ∧
      retrieve h t5 2 value = .ok (false, value) ∧
      insert h t5 5 "e" = .ok (true, t6) ∧
      t6.size = 4 ∧
      retrieve h t6 5 value = .ok (true, "e") := by
  have hwf0 : WF (HashTable.new 4 : HashTable Int String) := wf_new (by decide) (by decide)
  obtain ⟨t4, hall, hwf4, hc4, hsz4, hcap4, hst4, hret4⟩ :=
    insertAll_fresh h [(1, "a"), (2, "b"), (3, "c"), (4, "d")] (HashTable.new 4) hwf0
      (counted_new 4) (fun kv _ => not_stored_new 4 kv.1) (by decide) (by decide)
  have hsz4' : t4.current_size = 4 := hsz4
  have hcap4' : t4.capacity = 4 := hcap4
  have hret2 : retrieve h t4 2 value = .ok (true, "b") :=
    hret4 (2, "b") (by decide) value
  obtain ⟨i, p, hw, hp, hk, hpw⟩ := retrieve_true_inv h hwf4 hret2
  have hrem := remove_of_found h hwf4.cap_pos hw
  obtain ⟨hc5, hsz5⟩ := counted_cleared hwf4 hc4 (walk_found hw).1
  have hwf5 := wf_cleared hwf4 i
  have hsz5' : (cleared t4 i).current_size = 3 := by omega
  have hns5 : ¬ Stored (cleared t4 i) (5 : Int) := by
    intro hs
    rcases hst4 5 (stored_cleared hs) with h1 | h1
    · exact not_stored_new 4 5 h1
    · revert h1; decide
  obtain ⟨j, hwj, hj, hins⟩ := insert_fresh h hwf5 hc5 hns5
    (by rw [hsz5', cleared_capacity, hcap4']; decide) "e"
  obtain ⟨_, hsz6⟩ := counted_filled hwf5 hc5 (walk_free hwj) (5 : Int) "e"
  refine ⟨t4, cleared t4 i, filled (cleared t4 i) j 5 "e", hall, hsz4',
    insert_of_full h t4 (hsz4'.trans hcap4'.symm) 5 "e", hret2, hrem, hsz5', ?_, hins, ?_, ?_⟩
  · exact retrieve_of_not_found h (cleared t4 i) hwf5.cap_pos (walk_cleared_self h hw)
      (fun m hm => Probe.noConfusion hm) value
  · exact hsz6.trans (congrArg (· + 1) hsz5')
  · exact (retrieve_after_insert h hwf5 hins value).2

/-- C11 (clearing hazard scenario): capacity 3, pairwise distinct keys `A`,
`B`, `C` with `hash(A) mod 3 = 0`, `hash(B) mod 3 = 0`, `hash(C) mod 3 = 2`
(so `C` differs from `A` and `B` because its hash does).  From a fresh table the three inserts all return `true` and put `A` in slot 0,
`B` in slot 1 and `C` in slot 2; `remove(A)` returns `true`; afterwards
`retrieve(B)` returns `false` although slot 1 is still marked occupied and
holds `B`, and `size()` is 2. -/
theorem clearing_hazard [DecidableEq K] [Inhabited K] [Inhabited V] (h : K → Nat)
    (A B C : K) (a b c value : V) (hAB : A ≠ B)
    (hA : h A % 3 = 0) (hB : h B % 3 = 0) (hC : h C % 3 = 2) :
    insertAll h (HashTable.new 3) [(A, a), (B, b), (C, c)]
      = .ok ([true, true, true], ⟨[(A, a), (B, b), (C, c)], [true, true, true], 3, 3⟩) ∧
    remove h ⟨[(A, a), (B, b), (C, c)], [true, true, true], 3, 3⟩ A
      = .ok (true, ⟨[(A, a), (B, b), (C, c)], [false, true, true], 2, 3⟩) ∧
    retrieve h ⟨[(A, a), (B, b), (C, c)], [false, true, true], 2, 3⟩ B value
      = .ok (false, value) ∧
    (⟨[(A, a), (B, b), (C, c)], [false, true, true], 2, 3⟩ : HashTable K V).occupied[1]?
      = some true ∧
    (⟨[(A, a), (B, b), (C, c)], [false, true, true], 2, 3⟩ : HashTable K V).table[1]?
      = some (B, b) ∧
    (⟨[(A, a), (B, b), (C, c)], [false, true, true], 2, 3⟩ : HashTable K V).size = 2 := by
  refine ⟨?_, ?_, ?_, rfl, rfl, rfl⟩
  · simp [insertAll, insert, hash, insertLoop, HashTable.new, SIZE_MOD, hA, hB, hC, hAB,
      List.replicate]
  · have hdec : 2 % SIZE_MOD = 2 := by decide
    simp [remove, hash, removeLoop, hA, hdec]
  · simp [retrieve, hash, retrieveLoop, hB]

theorem clearing_hazard_witness :
    retrieve (fun n : Nat => n) (⟨[(3, 30), (6, 60), (5, 50)], [false, true, true], 2, 3⟩ :
      HashTable Nat Nat) 6 0 = .ok (false, 0) :=
  (clearing_hazard (fun n : Nat => n) 3 6 5 30 60 50 0 (by decide)
    (by decide) (by decide) (by decide)).2.2.1

/-- C12, as stated, fails: the constructor accepts capacity 0 and yields a
table (with empty arrays) on which `insert` can be called and returns
`false`. -/
theorem new_zero_counterexample :
    (HashTable.new 0 : HashTable Nat Nat) = ⟨[], [], 0, 0⟩ ∧
    insert (fun n : Nat => n) (HashTable.new 0 : HashTable Nat Nat) 1 10
      = .ok (false, ⟨[], [], 0, 0⟩) :=
  ⟨rfl, by decide⟩

/-- C12 (construction with capacity 0), amended: the constructor does not
reject capacity 0; it yields a table with empty slot and occupancy arrays,
`size() == 0` and `is_empty() == true`, and on that table every `insert`
returns `false` and leaves the table as it is. -/
theorem new_zero [DecidableEq K] [Inhabited K] [Inhabited V] (h : K → Nat) (k : K) (v : V) :
    (HashTable.new 0 : HashTable K V) = ⟨[], [], 0, 0⟩ ∧
    (HashTable.new 0 : HashTable K V).size = 0 ∧
    (HashTable.new 0 : HashTable K V).is_empty = true ∧
    insert h (HashTable.new 0 : HashTable K V) k v = .ok (false, HashTable.new 0) :=
  ⟨rfl, rfl, rfl, insert_of_full h _ rfl k v⟩

theorem insert_total [DecidableEq K] (h : K → Nat) {t : HashTable K V} (hwf : WF t)
    (key : K) (value : V) :
    ∃ b t', insert h t key value = .ok (b, t') ∧ t'.capacity = t.capacity := by
  rcases insert_cases h hwf key value with ⟨_, he⟩ | ⟨_, i, p, _, _, _, he⟩ |
      ⟨_, i, _, _, he⟩ | ⟨_, _, he⟩
  · exact ⟨_, _, he, rfl⟩
  · exact ⟨_, _, he, updated_capacity _ _ _ _⟩
  · exact ⟨_, _, he, filled_capacity _ _ _ _⟩
  · exact ⟨_, _, he, rfl⟩

theorem remove_total [DecidableEq K] (h : K → Nat) {t : HashTable K V} (hwf : WF t)
    (key : K) :
    ∃ b t', remove h t key = .ok (b, t') ∧ t'.capacity = t.capacity := by
  rcases remove_cases h hwf key with ⟨i, _, he⟩ | ⟨_, he⟩
  · exact ⟨_, _, he, cleared_capacity _ _⟩
  · exact ⟨_, _, he, rfl⟩

theorem retrieve_total [DecidableEq K] (h : K → Nat) {t : HashTable K V} (hwf : WF t)
    (key : K) (value : V) : ∃ r, retrieve h t key value = .ok r := by
  rcases retrieve_cases h hwf key value with ⟨_, _, _, _, _, he⟩ | ⟨_, he⟩ <;> exact ⟨_, he⟩

/-- Every call on a well-formed, counted table returns, and leaves a
well-formed, counted table of the same capacity. -/
theorem step_inv [DecidableEq K] (h : K → Nat) {t : HashTable K V} (hwf : WF t)
    (hc : Counted t) (op : Op K V) :
    ∃ t', step h t op = .ok t' ∧ WF t' ∧ Counted t' ∧ t'.capacity = t.capacity := by
  cases op with
  | insert k v =>
    obtain ⟨b, t', hi, hcap⟩ := insert_total h hwf k v
    have := insert_inv h hwf hc hi
    exact ⟨t', by simp only [step, hi], this.1, this.2, hcap⟩
  | retrieve k v =>
    obtain ⟨r, hr⟩ := retrieve_total h hwf k v
    exact ⟨t, by simp only [step, hr], hwf, hc, rfl⟩
  | remove k =>
    obtain ⟨b, t', hi, hcap⟩ := remove_total h hwf k
    have := remove_inv h hwf hc hi
    exact ⟨t', by simp only [step, hi], this.1, this.2, hcap⟩

theorem run_inv [DecidableEq K] (h : K → Nat) :
    ∀ (ops : List (Op K V)) (t : HashTable K V), WF t → Counted t →
      ∃ t', run h t ops = .ok t' ∧ WF t' ∧ Counted t' ∧ t'.capacity = t.capacity := by
  intro ops
  induction ops with
  | nil => intro t hwf hc; exact ⟨t, rfl, hwf, hc, rfl⟩
  | cons op ops ih =>
    intro t hwf hc
    obtain ⟨t1, h1, hwf1, hc1, hcap1⟩ := step_inv h hwf hc op
    obtain ⟨t', h2, hwf', hc', hcap'⟩ := ih t1 hwf1 hc1
    exact ⟨t', by rw [run]; simp only [h1]; exact h2, hwf', hc', hcap'.trans hcap1⟩

/-- C13 (size invariant): every finite sequence of `insert`, `retrieve` and
`remove` calls on a freshly constructed table of capacity at least one runs to
completion, and in the table it leaves `size()` equals the number of `true`
entries of the occupancy array, hence is at most the capacity; the capacity and
the lengths of both arrays are still the constructor's argument. -/
theorem size_invariant [DecidableEq K] [Inhabited K] [Inhabited V] (h : K → Nat)
    (cap : Nat) (hpos : 1 ≤ cap) (hlt : cap < SIZE_MOD) (ops : List (Op K V)) :
    ∃ t, run h (HashTable.new cap) ops = .ok t ∧
      t.size = t.occupied.count true ∧ t.size ≤ t.capacity ∧
      t.capacity = cap ∧ t.table.length = cap ∧ t.occupied.length = cap := by
  obtain ⟨t, hrun, hwf, hc, hcap⟩ :=
    run_inv h ops (HashTable.new cap : HashTable K V) (wf_new hpos hlt) (counted_new cap)
  have hcap' : t.capacity = cap := hcap
  have hle : t.occupied.count true ≤ t.occupied.length := List.count_le_length _ _
  have hc' : t.current_size = t.occupied.count true := hc
  refine ⟨t, hrun, hc', ?_, hcap', hwf.table_len.trans hcap', hwf.occ_len.trans hcap'⟩
  have := hwf.occ_len
  have hgoal : t.current_size ≤ t.capacity := by omega
  exact hgoal

theorem size_invariant_witness :
    ∃ t, run (fun n : Nat => n) (HashTable.new 3 : HashTable Nat Nat)
        [Op.insert 4 7, Op.insert 7 1, Op.remove 4, Op.retrieve 7 0, Op.insert 9 9] = .ok t ∧
      t.size = t.occupied.count true ∧ t.size ≤ t.capacity ∧
      t.capacity = 3 ∧ t.table.length = 3 ∧ t.occupied.length = 3 :=
  size_invariant (fun n : Nat => n) 3 (by decide) (by decide)
    [Op.insert 4 7, Op.insert 7 1, Op.remove 4, Op.retrieve 7 0, Op.insert 9 9]

/-- On a well-formed, counted table with room, `insert` returns `true`. -/
theorem insert_of_room [DecidableEq K] (h : K → Nat) {t : HashTable K V} (hwf : WF t)
    (hc : Counted t) (hroom : t.current_size < t.capacity) (key : K) (value : V) :
    walk h t key ≠ .ok .wrapped ∧ ∃ t', insert h t key value = .ok (true, t') := by
  have hnw : walk h t key ≠ .ok .wrapped := by
    intro hw
    have := wrapped_full hwf hw
    unfold Counted at hc
    omega
  refine ⟨hnw, ?_⟩
  rcases insert_cases h hwf key value with ⟨hf, _⟩ | ⟨_, i, p, _, _, _, he⟩ |
      ⟨_, i, _, _, he⟩ | ⟨_, hw, _⟩
  · omega
  · exact ⟨_, he⟩
  · exact ⟨_, he⟩
  · exact absurd hw hnw

/-- C15 (insert fails only when full): on a reachable table `insert(k, v)`
returns a result; with `size() < capacity` the wrap-around guard of its loop
is not taken (the loop does not return `false`) and `insert` returns `true`;
and `insert` returns `false` exactly when `size() == capacity`. -/
theorem insert_fails_only_when_full [DecidableEq K] [Inhabited K] [Inhabited V] (h : K → Nat)
    (t : HashTable K V) (hr : Reachable h t) (k : K) (v : V) :
    (∃ b t', insert h t k v = .ok (b, t')) ∧
    (t.size < t.capacity →
      (∀ t', insertLoop t k v (h k % t.capacity) t.capacity (h k % t.capacity)
        ≠ .ok (false, t')) ∧
      ∃ t', insert h t k v = .ok (true, t')) ∧
    ((∃ t', insert h t k v = .ok (false, t')) ↔ t.size = t.capacity) := by
  obtain ⟨hwf, hc⟩ := reachable_inv hr
  obtain ⟨b, t1, hi, _⟩ := insert_total h hwf k v
  refine ⟨⟨b, t1, hi⟩, ?_, ?_⟩
  · intro hroom
    have hroom' : t.current_size < t.capacity := hroom
    obtain ⟨_, t', ht'⟩ := insert_of_room h hwf hc hroom' k v
    refine ⟨?_, t', ht'⟩
    intro t2 h2
    have hne : t.current_size ≠ t.capacity := Nat.ne_of_lt hroom'
    have : insert h t k v = .ok (false, t2) := by
      unfold insert
      rw [if_neg hne, hash_ok h hwf.cap_pos]
      exact h2
    rw [ht'] at this
    injection this with h3
    injection h3 with h4 _
    exact Bool.noConfusion h4
  · constructor
    · rintro ⟨t', ht'⟩
      by_contra hne
      have hle : t.occupied.count true ≤ t.occupied.length := List.count_le_length _ _
      have hc' : t.current_size = t.occupied.count true := hc
      have hlen := hwf.occ_len
      have hne' : t.current_size ≠ t.capacity := hne
      have hroom : t.current_size < t.capacity := by omega
      obtain ⟨_, t2, ht2⟩ := insert_of_room h hwf hc hroom k v
      rw [ht2] at ht'
      injection ht' with h3
      injection h3 with h4 _
      exact Bool.noConfusion h4
    · intro hfull
      exact ⟨t, insert_of_full h t hfull k v⟩

theorem insert_fails_only_when_full_witness :
    (∃ t', insert (fun n : Nat => n)
        (⟨[(0, 0), (1, 10), (4, 40)], [false, true, true], 2, 3⟩ : HashTable Nat Nat) 7 70
        = .ok (true, t')) ∧
    ((∃ t', insert (fun n : Nat => n)
        (⟨[(7, 70), (1, 10), (4, 40)], [true, true, true], 3, 3⟩ : HashTable Nat Nat) 1 11
        = .ok (false, t')) ↔
      (⟨[(7, 70), (1, 10), (4, 40)], [true, true, true], 3, 3⟩ : HashTable Nat Nat).size = 3) :=
  ⟨((insert_fails_only_when_full (fun n : Nat => n)
      ⟨[(0, 0), (1, 10), (4, 40)], [false, true, true], 2, 3⟩
      (Reachable.insert
        (Reachable.insert (Reachable.new 3 (by decide) (by decide))
          (by decide : insert (fun n : Nat => n) (HashTable.new 3) 1 10 =
            .ok (true, ⟨[(0, 0), (1, 10), (0, 0)], [false, true, false], 1, 3⟩)))
        (by decide : insert (fun n : Nat => n)
            ⟨[(0, 0), (1, 10), (0, 0)], [false, true, false], 1, 3⟩ 4 40 =
          .ok (true, ⟨[(0, 0), (1, 10), (4, 40)], [false, true, true], 2, 3⟩)))
      7 70).2.1 (by decide)).2,
    (insert_fails_only_when_full (fun n : Nat => n)
      ⟨[(7, 70), (1, 10), (4, 40)], [true, true, true], 3, 3⟩
      (Reachable.insert
        (Reachable.insert
          (Reachable.insert (Reachable.new 3 (by decide) (by decide))
            (by decide : insert (fun n : Nat => n) (HashTable.new 3) 1 10 =
              .ok (true, ⟨[(0, 0), (1, 10), (0, 0)], [false, true, false], 1, 3⟩)))
          (by decide : insert (fun n : Nat => n)
              ⟨[(0, 0), (1, 10), (0, 0)], [false, true, false], 1, 3⟩ 4 40 =
            .ok (true, ⟨[(0, 0), (1, 10), (4, 40)], [false, true, true], 2, 3⟩)))
        (by decide : insert (fun n : Nat => n)
            ⟨[(0, 0), (1, 10), (4, 40)], [false, true, true], 2, 3⟩ 7 70 =
          .ok (true, ⟨[(7, 70), (1, 10), (4, 40)], [true, true, true], 3, 3⟩)))
      1 11).2.2⟩

/-- A successful `remove` has cleared the slot at which its walk stopped. -/
theorem remove_true_inv [DecidableEq K] (h : K → Nat) {t t' : HashTable K V} (hwf : WF t)
    {key : K} (hrem : remove h t key = .ok (true, t')) :
    ∃ i, walk h t key = .ok (.found i) ∧ t' = cleared t i := by
  rcases remove_cases h hwf key with ⟨i, hw, he⟩ | ⟨_, he⟩
  · rw [he] at hrem
    injection hrem with h1
    injection h1 with _ h2
    exact ⟨i, hw, h2.symm⟩
  · rw [he] at hrem
    injection hrem with h1
    injection h1 with h2 _
    exact Bool.noConfusion h2

/-- C17 (successful remove clears exactly one flag): on every well-formed
table state, if `remove(k)` returns `true` then there is a slot `i`, the first
slot on the probe sequence of `k` that holds `k` (every slot before it on the
sequence is occupied by another key), whose occupancy flag goes from `true` to
`false`; every other flag, the whole slot array and the capacity are
unchanged. -/
theorem remove_clears_one_flag [DecidableEq K] (h : K → Nat) (t t' : HashTable K V)
    (hwf : WF t) (k : K) (hrem : remove h t k = .ok (true, t')) :
    ∃ i, ProbeSpec t k (h k % t.capacity) 0 (.found i) ∧
      t.occupied[i]? = some true ∧ t'.occupied[i]? = some false ∧
      (∀ j, j ≠ i → t'.occupied[j]? = t.occupied[j]?) ∧
      t'.occupied.length = t.occupied.length ∧
      t'.table = t.table ∧ t'.capacity = t.capacity := by
  obtain ⟨i, hw, ht'⟩ := remove_true_inv h hwf hrem
  subst ht'
  have hh := walk_found hw
  refine ⟨i, walk_spec_of hwf hw, hh.1, free_cleared_self (holds_lt hh).1, ?_, ?_,
    cleared_table t i, cleared_capacity t i⟩
  · intro j hj
    rw [cleared_occupied, List.getElem?_set_ne (Ne.symm hj)]
  · rw [cleared_occupied, List.length_set]

theorem remove_clears_one_flag_witness :
    ∃ i, ProbeSpec (⟨[(3, 30), (6, 60), (5, 50)], [true, true, true], 3, 3⟩ : HashTable Nat Nat)
        6 ((fun n : Nat => n) 6 % 3) 0 (.found i) ∧
      (⟨[(3, 30), (6, 60), (5, 50)], [true, true, true], 3, 3⟩ :
        HashTable Nat Nat).occupied[i]? = some true ∧
      (⟨[(3, 30), (6, 60), (5, 50)], [true, false, true], 2, 3⟩ :
        HashTable Nat Nat).occupied[i]? = some false ∧
      (∀ j, j ≠ i →
        (⟨[(3, 30), (6, 60), (5, 50)], [true, false, true], 2, 3⟩ :
          HashTable Nat Nat).occupied[j]? =
        (⟨[(3, 30), (6, 60), (5, 50)], [true, true, true], 3, 3⟩ :
          HashTable Nat Nat).occupied[j]?) ∧
      (⟨[(3, 30), (6, 60), (5, 50)], [true, false, true], 2, 3⟩ :
        HashTable Nat Nat).occupied.length = 3 ∧
      (⟨[(3, 30), (6, 60), (5, 50)], [true, false, true], 2, 3⟩ :
        HashTable Nat Nat).table = [(3, 30), (6, 60), (5, 50)] ∧
      (⟨[(3, 30), (6, 60), (5, 50)], [true, false, true], 2, 3⟩ :
        HashTable Nat Nat).capacity = 3 :=
  remove_clears_one_flag (fun n : Nat => n)
    ⟨[(3, 30), (6, 60), (5, 50)], [true, true, true], 3, 3⟩
    ⟨[(3, 30), (6, 60), (5, 50)], [true, false, true], 2, 3⟩
    ⟨by decide, by decide, rfl, rfl⟩ 6 (by decide)

/-- C19 (insert never hides another key): on every well-formed table state,
for keys `k ≠ k'`, if `retrieve(k')` returns `true` with value `w`, then
`insert(k, v)` returns a result and, whether that result is `true` or `false`,
`retrieve(k')` on the table it leaves returns `true` with the same `w`. -/
theorem insert_keeps_other [DecidableEq K] (h : K → Nat) (t : HashTable K V) (hwf : WF t)
    (k k' : K) (hne : k ≠ k') (v w value : V)
    (hret : retrieve h t k' value = .ok (true, w)) :
    ∃ b t', insert h t k v = .ok (b, t') ∧
      ∀ value', retrieve h t' k' value' = .ok (true, w) := by
  obtain ⟨b, t', hi, _⟩ := insert_total h hwf k v
  exact ⟨b, t', hi, fun value' => retrieve_insert_other h hwf hne hret hi value'⟩

theorem insert_keeps_other_witness :
    ∃ b t', insert (fun _ : Nat => 0)
        (⟨[(3, 30), (2, 20), (0, 0)], [true, true, false], 5, 3⟩ : HashTable Nat Nat) 1 11
        = .ok (b, t') ∧
      ∀ value', retrieve (fun _ : Nat => 0) t' 2 value' = .ok (true, 20) :=
  insert_keeps_other (fun _ : Nat => 0) ⟨[(3, 30), (2, 20), (0, 0)], [true, true, false], 5, 3⟩
    ⟨by decide, by decide, rfl, rfl⟩ 1 2 (by decide) 11 20 0 (by decide)

/-- One step of the list of examined slots: the walk either stops at `index`
or steps over it to the next slot. -/
theorem probePath_step [DecidableEq K] (t : HashTable K V) (key : K) (o fuel index : Nat) :
    probePath t key o (fuel + 1) index = [index] ∨
    probePath t key o (fuel + 1) index =
      index :: probePath t key o fuel ((index + 1) % t.capacity) := by
  rw [probePath]
  split
  · split
    · left; rfl
    · split
      · left; rfl
      · right; rfl
  · left; rfl

/-- The slots examined are consecutive offsets from the starting slot, and
there are at most as many of them as units of fuel. -/
theorem probePath_offsets [DecidableEq K] (t : HashTable K V) (key : K) (o : Nat) :
    ∀ fuel d, ∃ n, n ≤ fuel ∧ (0 < fuel → 0 < n) ∧
      probePath t key o fuel ((o + d) % t.capacity) =
        (List.range' d n).map (fun e => (o + e) % t.capacity) := by
  intro fuel
  induction fuel with
  | zero => intro d; exact ⟨0, Nat.le_refl _, fun hh => absurd hh (Nat.lt_irrefl _), rfl⟩
  | succ f ih =>
    intro d
    rcases probePath_step t key o f ((o + d) % t.capacity) with h1 | h1
    · exact ⟨1, by omega, fun _ => Nat.one_pos, by rw [h1]; rfl⟩
    · obtain ⟨n, hn, _, hp⟩ := ih (d + 1)
      refine ⟨n + 1, by omega, fun _ => Nat.succ_pos _, ?_⟩
      rw [h1, offset_succ, hp, List.range'_succ, List.map_cons]

/-- The walk gives the same answer when its fuel is the number of slots it
examines. -/
theorem probe_fuel_path [DecidableEq K] (t : HashTable K V) (key : K) (o : Nat) :
    ∀ fuel index r, probe t key o fuel index = .ok r →
      probe t key o (probePath t key o fuel index).length index = .ok r := by
  intro fuel
  induction fuel with
  | zero => intro index r h; simp [probe] at h
  | succ n ih =>
    intro index r h
    rcases slot_cases t key index with hsk | hho | hfr | hno | ⟨h1, h2⟩
    · rw [probe_step_skips hsk] at h
      rw [probePath_step_skips hsk]
      by_cases hw : (index + 1) % t.capacity = o
      · rw [if_pos hw] at h ⊢
        rw [List.length_singleton, probe_step_skips hsk, if_pos hw]; exact h
      · rw [if_neg hw] at h ⊢
        rw [List.length_cons, probe_step_skips hsk, if_neg hw]
        exact ih _ r h
    · rw [probe_step_holds hho] at h
      rcases probePath_step t key o n index with hp | hp <;>
        rw [hp, List.length_cons, probe_step_holds hho] <;> exact h
    · rw [probe_step_free key hfr] at h
      rcases probePath_step t key o n index with hp | hp <;>
        rw [hp, List.length_cons, probe_step_free key hfr] <;> exact h
    · rw [probe] at h; simp [hno] at h
    · rw [probe] at h; simp [h1, h2] at h

/-- The slots examined by an operation on `key`: `n` consecutive offsets from
`hash(key)`, with `1 ≤ n ≤ capacity`, all different; and `n` units of fuel are
enough for the walk. -/
theorem walkPath_spec [DecidableEq K] (h : K → Nat) {t : HashTable K V} (hwf : WF t)
    (key : K) :
    ∃ n r, 1 ≤ n ∧ n ≤ t.capacity ∧
      walkPath h t key =
        (List.range n).map (fun e => (h key % t.capacity + e) % t.capacity) ∧
      (walkPath h t key).Nodup ∧
      probe t key (h key % t.capacity) n (h key % t.capacity) = .ok r ∧
      probe t key (h key % t.capacity) t.capacity (h key % t.capacity) = .ok r := by
  obtain ⟨n, hn, hpos, hp⟩ := probePath_offsets t key (h key % t.capacity) t.capacity 0
  have ho : h key % t.capacity < t.capacity := Nat.mod_lt _ hwf.cap_pos
  rw [Nat.add_zero, Nat.mod_eq_of_lt ho, ← List.range_eq_range'] at hp
  obtain ⟨r, hr, _⟩ := walk_spec h hwf key
  have hlen : (walkPath h t key).length = n := by
    unfold walkPath; rw [hp, List.length_map, List.length_range]
  have hfuel := probe_fuel_path t key _ _ _ r hr
  refine ⟨n, r, hpos hwf.cap_pos, hn, hp, ?_, ?_, hr⟩
  · unfold walkPath
    rw [hp]
    apply List.Nodup.map_on _ (List.nodup_range n)
    intro x hx y hy hxy
    rw [List.mem_range] at hx hy
    exact offset_inj (Nat.lt_of_lt_of_le hx hn) (Nat.lt_of_lt_of_le hy hn) hxy
  · have : (probePath t key (h key % t.capacity) t.capacity (h key % t.capacity)).length = n :=
      hlen
    rw [this] at hfuel
    exact hfuel

/-- C18 (bounded probing): on every well-formed table state, whatever its
occupancy pattern, the loops of `insert`, `retrieve` and `remove` for a key
examine the slots `start, start + 1, ...` (wrapping modulo the capacity), `n` of
them with `1 ≤ n ≤ capacity`, each once; each loop returns when run with `n`
units of fuel (one unit per slot examined), with the result it gives when run
with `capacity` units. -/
theorem bounded_probing [DecidableEq K] (h : K → Nat) (t : HashTable K V) (hwf : WF t)
    (k : K) (v value : V) :
    ∃ n, 1 ≤ n ∧ n ≤ t.capacity ∧
      walkPath h t k = (List.range n).map (fun e => (h k % t.capacity + e) % t.capacity) ∧
      (walkPath h t k).Nodup ∧
      (∃ r, insertLoop t k v (h k % t.capacity) n (h k % t.capacity) = .ok r ∧
        insertLoop t k v (h k % t.capacity) t.capacity (h k % t.capacity) = .ok r) ∧
      (∃ r, retrieveLoop t k value (h k % t.capacity) n (h k % t.capacity) = .ok r ∧
        retrieveLoop t k value (h k % t.capacity) t.capacity (h k % t.capacity) = .ok r) ∧
      (∃ r, removeLoop t k (h k % t.capacity) n (h k % t.capacity) = .ok r ∧
        removeLoop t k (h k % t.capacity) t.capacity (h k % t.capacity) = .ok r) := by
  obtain ⟨n, r, h1, h2, h3, h4, h5, h6⟩ := walkPath_spec h hwf k
  refine ⟨n, h1, h2, h3, h4, ?_, ?_, ?_⟩
  · have hex : ∃ x, insertAt t k v r = .ok x := by
      cases r with
      | found i =>
        obtain ⟨_, p, hp, _⟩ := walk_found (h := h) h6
        exact ⟨(true, updated t i p v), by simp only [insertAt, hp]⟩
      | free i =>
        have hf := walk_free (h := h) h6
        have hlt : i < t.table.length := by
          rw [hwf.table_len, ← hwf.occ_len]; exact (List.getElem?_eq_some.1 hf).1
        exact ⟨(true, filled t i k v), by simp only [insertAt, if_pos hlt]⟩
      | wrapped => exact ⟨_, rfl⟩
    obtain ⟨x, hx⟩ := hex
    exact ⟨x, by rw [insertLoop_eq, h5]; exact hx, by rw [insertLoop_eq, h6]; exact hx⟩
  · have hex : ∃ x, retrieveAt t value r = .ok x := by
      cases r with
      | found i =>
        obtain ⟨_, p, hp, _⟩ := walk_found (h := h) h6
        exact ⟨(true, p.2), by simp only [retrieveAt, hp]⟩
      | free i => exact ⟨_, rfl⟩
      | wrapped => exact ⟨_, rfl⟩
    obtain ⟨x, hx⟩ := hex
    exact ⟨x, by rw [retrieveLoop_eq, h5]; exact hx, by rw [retrieveLoop_eq, h6]; exact hx⟩
  · have hex : ∃ x, removeAt t r = .ok x := by
      cases r with
      | found i => exact ⟨_, rfl⟩
      | free i => exact ⟨_, rfl⟩
      | wrapped => exact ⟨_, rfl⟩
    obtain ⟨x, hx⟩ := hex
    exact ⟨x, by rw [removeLoop_eq, h5]; exact hx, by rw [removeLoop_eq, h6]; exact hx⟩

theorem bounded_probing_witness :
    ∃ n, 1 ≤ n ∧ n ≤ 3 ∧
      walkPath (fun n : Nat => n)
        (⟨[(3, 30), (6, 60), (5, 50)], [true, true, true], 3, 3⟩ : HashTable Nat Nat) 8
        = (List.range n).map (fun e => (8 % 3 + e) % 3) ∧
      (walkPath (fun n : Nat => n)
        (⟨[(3, 30), (6, 60), (5, 50)], [true, true, true], 3, 3⟩ : HashTable Nat Nat) 8).Nodup ∧
      (∃ r, insertLoop (⟨[(3, 30), (6, 60), (5, 50)], [true, true, true], 3, 3⟩ :
          HashTable Nat Nat) 8 80 (8 % 3) n (8 % 3) = .ok r ∧
        insertLoop (⟨[(3, 30), (6, 60), (5, 50)], [true, true, true], 3, 3⟩ :
          HashTable Nat Nat) 8 80 (8 % 3) 3 (8 % 3) = .ok r) ∧
      (∃ r, retrieveLoop (⟨[(3, 30), (6, 60), (5, 50)], [true, true, true], 3, 3⟩ :
          HashTable Nat Nat) 8 0 (8 % 3) n (8 % 3) = .ok r ∧
        retrieveLoop (⟨[(3, 30), (6, 60), (5, 50)], [true, true, true], 3, 3⟩ :
          HashTable Nat Nat) 8 0 (8 % 3) 3 (8 % 3) = .ok r) ∧
      (∃ r, removeLoop (⟨[(3, 30), (6, 60), (5, 50)], [true, true, true], 3, 3⟩ :
          HashTable Nat Nat) 8 (8 % 3) n (8 % 3) = .ok r ∧
        removeLoop (⟨[(3, 30), (6, 60), (5, 50)], [true, true, true], 3, 3⟩ :
          HashTable Nat Nat) 8 (8 % 3) 3 (8 % 3) = .ok r) :=
  bounded_probing (fun n : Nat => n) ⟨[(3, 30), (6, 60), (5, 50)], [true, true, true], 3, 3⟩
    ⟨by decide, by decide, rfl, rfl⟩ 8 80 0

/-- An `insert` keeps every walk that stopped at a slot holding its key
stopping there. -/
theorem walk_found_insert [DecidableEq K] (h : K → Nat) {t t' : HashTable K V} (hwf : WF t)
    {k key : K} {v : V} {b : Bool} {i : Nat} (hi : insert h t k v = .ok (b, t'))
    (hw : walk h t key = .ok (.found i)) : walk h t' key = .ok (.found i) := by
  have hh := walk_found hw
  rcases insert_cases h hwf k v with ⟨_, he⟩ | ⟨_, j, q, hwj, hq, hqk, he⟩ |
      ⟨_, j, hwj, hlt, he⟩ | ⟨_, _, he⟩ <;>
    (rw [he] at hi; injection hi with h1; injection h1 with _ h2; subst h2)
  · exact hw
  · exact (walk_transfer h t (updated t j q v) (updated_capacity t j q v) hw
      (fun m _ hm => (skips_updated hq v key m).2 hm)).1 i rfl
      ((holds_updated hq v key i).2 hh)
  · have hf := walk_free hwj
    have hocc : ∀ m, t.occupied[m]? = some true → j ≠ m := by
      rintro m hm rfl
      rw [hf] at hm; cases hm
    exact (walk_transfer h t (filled t j k v) (filled_capacity t j k v) hw
      (fun m _ hm => (skips_filled_ne (hocc m hm.1) k v key).2 hm)).1 i rfl
      ((holds_filled_ne (hocc i hh.1) k v key).2 hh)
  · exact hw

theorem allFound_new [DecidableEq K] [Inhabited K] [Inhabited V] (h : K → Nat) (cap : Nat) :
    AllFound h (HashTable.new cap : HashTable K V) := by
  intro i p h1 _
  simp only [HashTable.new, List.getElem?_replicate] at h1
  split at h1 <;> cases h1

theorem allFound_insert [DecidableEq K] (h : K → Nat) {t t' : HashTable K V} (hwf : WF t)
    (haf : AllFound h t) {k : K} {v : V} {b : Bool} (hi : insert h t k v = .ok (b, t')) :
    AllFound h t' := by
  intro i p ho hp
  rcases insert_cases h hwf k v with ⟨_, he⟩ | ⟨_, j, q, hwj, hq, hqk, he⟩ |
      ⟨_, j, hwj, hlt, he⟩ | ⟨_, _, he⟩
  · have ht : t' = t := by
      rw [he] at hi; injection hi with h1; injection h1 with _ h2; exact h2.symm
    subst ht
    exact haf i p ho hp
  · have ht : t' = updated t j q v := by
      rw [he] at hi; injection hi with h1; injection h1 with _ h2; exact h2.symm
    rw [ht, updated_occupied] at ho
    rw [ht, updated_table] at hp
    rw [ht]
    by_cases hij : j = i
    · subst hij
      have hlt := (List.getElem?_eq_some.1 hq).1
      rw [List.getElem?_set_self hlt] at hp
      injection hp with hp
      rw [← hp]
      show walk h (updated t j q v) q.1 = .ok (.found j)
      rw [hqk]
      exact walk_updated_self h hwj hq v
    · rw [List.getElem?_set_ne hij] at hp
      rw [← ht]
      exact walk_found_insert h hwf hi (haf i p ho hp)
  · have ht : t' = filled t j k v := by
      rw [he] at hi; injection hi with h1; injection h1 with _ h2; exact h2.symm
    rw [ht, filled_occupied] at ho
    rw [ht, filled_table] at hp
    rw [ht]
    by_cases hij : j = i
    · subst hij
      have hlt' : j < t.table.length := by rw [hwf.table_len]; exact hlt
      rw [List.getElem?_set_self hlt'] at hp
      injection hp with hp
      rw [← hp]
      exact walk_filled_self h hwj hlt' v
    · rw [List.getElem?_set_ne hij] at hp ho
      rw [← ht]
      exact walk_found_insert h hwf hi (haf i p ho hp)
  · have ht : t' = t := by
      rw [he] at hi; injection hi with h1; injection h1 with _ h2; exact h2.symm
    subst ht
    exact haf i p ho hp

/-- A call that is not a successful `remove` returns and keeps the table
well-formed, of the same capacity, with every stored key found by its walk. -/
theorem step_allFound [DecidableEq K] (h : K → Nat) {t : HashTable K V} (hwf : WF t)
    (haf : AllFound h t) (op : Op K V) (hs : removeFails h t op = true) :
    ∃ t', step h t op = .ok t' ∧ WF t' ∧ AllFound h t' ∧ t'.capacity = t.capacity := by
  cases op with
  | insert k v =>
    obtain ⟨b, t', hi, hcap⟩ := insert_total h hwf k v
    exact ⟨t', by simp only [step, hi], insert_wf h hwf hi, allFound_insert h hwf haf hi, hcap⟩
  | retrieve k v =>
    obtain ⟨r, hr⟩ := retrieve_total h hwf k v
    exact ⟨t, by simp only [step, hr], hwf, haf, rfl⟩
  | remove k =>
    rcases remove_cases h hwf k with ⟨i, _, he⟩ | ⟨_, he⟩
    · simp [removeFails, he] at hs
    · exact ⟨t, by simp only [step, he], hwf, haf, rfl⟩

theorem run_allFound [DecidableEq K] (h : K → Nat) :
    ∀ (ops : List (Op K V)) (t : HashTable K V), WF t → AllFound h t →
      removesFail h t ops = true →
      ∃ t', run h t ops = .ok t' ∧ WF t' ∧ AllFound h t' ∧ t'.capacity = t.capacity := by
  intro ops
  induction ops with
  | nil => intro t hwf haf _; exact ⟨t, rfl, hwf, haf, rfl⟩
  | cons op ops ih =>
    intro t hwf haf hs
    rw [removesFail, Bool.and_eq_true] at hs
    obtain ⟨t1, h1, hwf1, haf1, hcap1⟩ := step_allFound h hwf haf op hs.1
    have hs2 := hs.2
    simp only [h1] at hs2
    obtain ⟨t', h2, hwf', haf', hcap'⟩ := ih t1 hwf1 haf1 hs2
    exact ⟨t', by rw [run]; simp only [h1]; exact h2, hwf', haf', hcap'.trans hcap1⟩

theorem removesFail_of_no_remove [DecidableEq K] (h : K → Nat) :
    ∀ (ops : List (Op K V)) (t : HashTable K V), (∀ op ∈ ops, op.isRemove = false) →
      removesFail h t ops = true := by
  intro ops
  induction ops with
  | nil => intro t _; rfl
  | cons op ops ih =>
    intro t hno
    rw [removesFail, Bool.and_eq_true]
    constructor
    · have := hno op (List.mem_cons_self _ _)
      cases op with
      | insert k v => rfl
      | retrieve k v => rfl
      | remove k => simp [Op.isRemove] at this
    · cases hst : step h t op with
      | error e => rfl
      | ok t' => exact ih t' (fun op' hop' => hno op' (List.mem_cons_of_mem _ hop'))

/-- C16 (linear-probing reachability): every finite sequence of `insert` and
`retrieve` calls (no `remove`) on a freshly constructed table of capacity at
least one runs to completion, and in the table it leaves, for every occupied
slot `i` holding a key `k`: `i` lies at an offset `e < capacity` from
`hash(k) mod capacity` on the wrapping probe sequence, every slot at a smaller
offset is occupied and holds a key different from `k`, and the walk for `k`
stops at `i`. -/
theorem probe_reachability [DecidableEq K] [Inhabited K] [Inhabited V] (h : K → Nat)
    (cap : Nat) (hpos : 1 ≤ cap) (hlt : cap < SIZE_MOD) (ops : List (Op K V))
    (hno : ∀ op ∈ ops, op.isRemove = false) :
    ∃ t, run h (HashTable.new cap) ops = .ok t ∧ t.capacity = cap ∧
      ∀ i p, t.occupied[i]? = some true → t.table[i]? = some p →
        (∃ e, e < cap ∧ i = (h p.1 % cap + e) % cap ∧
          ∀ e', e' < e → Skips t p.1 ((h p.1 % cap + e') % cap)) ∧
        walk h t p.1 = .ok (.found i) := by
  obtain ⟨t, hrun, hwf, haf, hcap⟩ :=
    run_allFound h ops (HashTable.new cap : HashTable K V) (wf_new hpos hlt)
      (allFound_new h cap) (removesFail_of_no_remove h ops _ hno)
  have hcap' : t.capacity = cap := hcap
  refine ⟨t, hrun, hcap', ?_⟩
  intro i p ho hp
  have hw := haf i p ho hp
  obtain ⟨e, _, he, hie, _, hsk⟩ : ∃ e, 0 ≤ e ∧ e < t.capacity ∧
      i = (h p.1 % t.capacity + e) % t.capacity ∧ Holds t p.1 i ∧
      ∀ e', 0 ≤ e' → e' < e → Skips t p.1 ((h p.1 % t.capacity + e') % t.capacity) :=
    walk_spec_of hwf hw
  rw [hcap'] at he hie hsk
  exact ⟨⟨e, he, hie, fun e' he' => hsk e' (Nat.zero_le _) he'⟩, hw⟩

theorem probe_reachability_witness :
    ∃ t, run (fun _ : Nat => 4) (HashTable.new 3 : HashTable Nat Nat)
        [Op.insert 1 10, Op.insert 2 20, Op.retrieve 2 0, Op.insert 3 30] = .ok t ∧
      t.capacity = 3 ∧
      ∀ i p, t.occupied[i]? = some true → t.table[i]? = some p →
        (∃ e, e < 3 ∧ i = ((fun _ : Nat => 4) p.1 % 3 + e) % 3 ∧
          ∀ e', e' < e → Skips t p.1 (((fun _ : Nat => 4) p.1 % 3 + e') % 3)) ∧
        walk (fun _ : Nat => 4) t p.1 = .ok (.found i) :=
  probe_reachability (fun _ : Nat => 4) 3 (by decide) (by decide)
    [Op.insert 1 10, Op.insert 2 20, Op.retrieve 2 0, Op.insert 3 30] (by decide)

theorem refLookup_refSet_self [DecidableEq K] (key : K) (value : V) :
    ∀ m : List (K × V), refLookup key (refSet key value m) = some value := by
  intro m
  induction m with
  | nil => simp [refSet, refLookup]
  | cons p m ih =>
    by_cases hp : p.1 = key
    · simp [refSet, refLookup, hp]
    · simp [refSet, refLookup, hp, ih]

theorem refLookup_refSet_ne [DecidableEq K] {key key' : K} (hne : key ≠ key') (value : V) :
    ∀ m : List (K × V), refLookup key' (refSet key value m) = refLookup key' m := by
  intro m
  induction m with
  | nil => simp [refSet, refLookup, hne]
  | cons p m ih =>
    by_cases hp : p.1 = key
    · have hp' : ¬ p.1 = key' := by rw [hp]; exact hne
      simp [refSet, refLookup, hp, hp', hne]
    · by_cases hq : p.1 = key'
      · have hne' : ¬ key' = key := fun he => hne he.symm
        simp [refSet, refLookup, hq, hne']
      · simp [refSet, refLookup, hp, hq, ih]

theorem refLookup_none_iff [DecidableEq K] (key : K) :
    ∀ m : List (K × V), refLookup key m = none ↔ key ∉ m.map Prod.fst := by
  intro m
  induction m with
  | nil => simp [refLookup]
  | cons p m ih =>
    by_cases hp : p.1 = key
    · simp [refLookup, hp]
    · have hp' : ¬ key = p.1 := fun he => hp he.symm
      simp only [refLookup, if_neg hp, ih, List.map_cons, List.mem_cons, not_or, hp',
        not_false_eq_true, true_and]

theorem refSet_keys [DecidableEq K] (key : K) (value : V) :
    ∀ m : List (K × V), (refSet key value m).map Prod.fst =
      if key ∈ m.map Prod.fst then m.map Prod.fst else m.map Prod.fst ++ [key] := by
  intro m
  induction m with
  | nil => simp [refSet]
  | cons p m ih =>
    by_cases hp : p.1 = key
    · simp [refSet, hp]
    · have hp' : ¬ key = p.1 := fun he => hp he.symm
      simp only [refSet, if_neg hp, List.map_cons, ih, List.mem_cons, hp', false_or]
      split <;> simp

theorem refSet_nodup [DecidableEq K] (key : K) (value : V) {m : List (K × V)}
    (hm : (m.map Prod.fst).Nodup) : ((refSet key value m).map Prod.fst).Nodup := by
  rw [refSet_keys]
  split
  · exact hm
  · rename_i hk
    rw [List.nodup_append]
    refine ⟨hm, List.nodup_singleton _, ?_⟩
    intro a ha hb
    rw [List.mem_singleton] at hb
    subst hb
    exact hk ha

theorem refSet_length [DecidableEq K] (key : K) (value : V) (m : List (K × V)) :
    (refSet key value m).length =
      if key ∈ m.map Prod.fst then m.length else m.length + 1 := by
  have := congrArg List.length (refSet_keys key value m)
  rw [List.length_map] at this
  rw [this]
  split <;> simp

theorem retrieve_false_of_not_stored [DecidableEq K] (h : K → Nat) {t : HashTable K V}
    (hwf : WF t) {key : K} (hns : ¬ Stored t key) (value : V) :
    retrieve h t key value = .ok (false, value) := by
  obtain ⟨r, hr, _⟩ := walk_spec h hwf key
  refine retrieve_of_not_found h t hwf.cap_pos hr ?_ value
  intro i hi
  rw [hi] at hr
  exact hns ⟨i, walk_found hr⟩

theorem retrieve_true_of_stored [DecidableEq K] (h : K → Nat) {t : HashTable K V}
    (hwf : WF t) (haf : AllFound h t) {key : K} (hs : Stored t key) (value : V) :
    ∃ w, retrieve h t key value = .ok (true, w) := by
  obtain ⟨i, ho, p, hp, hk⟩ := hs
  have hw := haf i p ho hp
  rw [hk] at hw
  exact ⟨p.2, retrieve_of_found h t hwf.cap_pos p hw hp value⟩

theorem stored_insert [DecidableEq K] (h : K → Nat) {t t' : HashTable K V} (hwf : WF t)
    {k key : K} {v : V} {b : Bool} (hi : insert h t k v = .ok (b, t'))
    (hs : Stored t' key) : Stored t key ∨ key = k := by
  rcases insert_cases h hwf k v with ⟨_, he⟩ | ⟨_, j, q, _, hq, _, he⟩ |
      ⟨_, j, _, _, he⟩ | ⟨_, _, he⟩ <;>
    (rw [he] at hi; injection hi with h1; injection h1 with _ h2; subst h2)
  · exact Or.inl hs
  · exact Or.inl (stored_updated hq hs)
  · exact stored_filled hs
  · exact Or.inl hs

theorem refRetrieve_true_iff [DecidableEq K] (m : List (K × V)) (key : K) (value : V) :
    (∃ w, refRetrieve m key value = (true, w)) ↔ key ∈ m.map Prod.fst := by
  have hn := refLookup_none_iff key m
  unfold refRetrieve
  cases hl : refLookup key m with
  | none =>
    rw [hl] at hn
    constructor
    · rintro ⟨w, hw⟩
      injection hw with h1 _
      exact Bool.noConfusion h1
    · intro hk; exact absurd hk (hn.1 rfl)
  | some w =>
    rw [hl] at hn
    constructor
    · intro _
      by_contra hk
      have := hn.2 hk
      cases this
    · intro _; exact ⟨w, rfl⟩

/-- One `insert` on a table that agrees with the reference map returns the
reference's boolean and leaves a table that agrees with the reference's new
map. -/
theorem insert_refines [DecidableEq K] (h : K → Nat) {N : Nat} {t : HashTable K V}
    {m : List (K × V)} (ha : Agrees h N t m) (k : K) (v : V) :
    ∃ t', insert h t k v = .ok ((refInsert N m k v).1, t') ∧
      Agrees h N t' (refInsert N m k v).2 := by
  have hwf := ha.wf
  by_cases hfull : m.length = N
  · have hr : refInsert N m k v = (false, m) := by unfold refInsert; rw [if_pos hfull]
    rw [hr]
    exact ⟨t, insert_of_full h t (by rw [ha.size_eq, ha.cap, hfull]) k v, ha⟩
  · have hr : refInsert N m k v = (true, refSet k v m) := by
      unfold refInsert; rw [if_neg hfull]
    rw [hr]
    have hcnt : t.current_size = t.occupied.count true := ha.counted
    have hle : t.occupied.count true ≤ t.occupied.length := List.count_le_length _ _
    have hlen := hwf.occ_len
    have hsz := ha.size_eq
    have hcap := ha.cap
    have hroom : t.current_size < t.capacity := by omega
    obtain ⟨_, t', hi⟩ := insert_of_room h hwf ha.counted hroom k v
    have hinv := insert_inv h hwf ha.counted hi
    have hcap' : t'.capacity = N := by
      obtain ⟨b, t1, hi1, hc1⟩ := insert_total h hwf k v
      rw [hi] at hi1
      injection hi1 with h1
      injection h1 with _ h2
      rw [h2, hc1, hcap]
    refine ⟨t', hi, hinv.1, hinv.2, allFound_insert h hwf ha.allFound hi, hcap', ?_,
      refSet_nodup k v ha.nodup, ?_⟩
    · rw [refSet_length]
      rcases insert_cases h hwf k v with ⟨_, he⟩ | ⟨_, j, q, hwj, hq, _, he⟩ |
          ⟨_, j, hwj, _, he⟩ | ⟨_, _, he⟩ <;>
        (rw [he] at hi; injection hi with h1; injection h1 with hb h2)
      · exact Bool.noConfusion hb
      · have hmem : k ∈ m.map Prod.fst := by
          rw [← refRetrieve_true_iff m k v]
          have h3 := ha.retrieve_eq k v
          rw [retrieve_of_found h t hwf.cap_pos q hwj hq v] at h3
          injection h3 with h4
          exact ⟨q.2, h4.symm⟩
        rw [if_pos hmem, ← h2, updated_current_size, hsz]
      · have hnm : k ∉ m.map Prod.fst := by
          intro hmem
          obtain ⟨w, hw⟩ := (refRetrieve_true_iff m k v).2 hmem
          have h3 := ha.retrieve_eq k v
          rw [hw, retrieve_of_not_found h t hwf.cap_pos hwj
            (fun i hi' => Probe.noConfusion hi') v] at h3
          injection h3 with h4
          injection h4 with h5 _
          exact Bool.noConfusion h5
        rw [if_neg hnm, ← h2, (counted_filled hwf ha.counted (walk_free hwj) k v).2, hsz]
      · exact Bool.noConfusion hb
    · intro key value
      by_cases hk : k = key
      · subst hk
        rw [(retrieve_after_insert h hwf hi value).2]
        unfold refRetrieve
        rw [refLookup_refSet_self]
      · have hrr : refRetrieve (refSet k v m) key value = refRetrieve m key value := by
          unfold refRetrieve; rw [refLookup_refSet_ne hk]
        rw [hrr]
        have hold := ha.retrieve_eq key value
        cases hl : refLookup key m with
        | some w =>
          have hrm : refRetrieve m key value = (true, w) := by unfold refRetrieve; rw [hl]
          rw [hrm] at hold ⊢
          exact retrieve_insert_other h hwf hk hold hi value
        | none =>
          have hrm : refRetrieve m key value = (false, value) := by
            unfold refRetrieve; rw [hl]
          rw [hrm] at hold ⊢
          have hns : ¬ Stored t key := by
            intro hs
            obtain ⟨w, hw⟩ := retrieve_true_of_stored h hwf ha.allFound hs value
            rw [hw] at hold
            injection hold with h4
            injection h4 with h5 _
            exact Bool.noConfusion h5
          have hns' : ¬ Stored t' key := by
            intro hs
            rcases stored_insert h hwf hi hs with h1 | h1
            · exact hns h1
            · exact hk h1.symm
          exact retrieve_false_of_not_stored h hinv.1 hns' value

theorem agrees_new [DecidableEq K] [Inhabited K] [Inhabited V] (h : K → Nat) {N : Nat}
    (hN : 1 ≤ N) (hlt : N < SIZE_MOD) : Agrees h N (HashTable.new N : HashTable K V) [] :=
  ⟨wf_new hN hlt, counted_new N, allFound_new h N, rfl, rfl, List.nodup_nil,
    fun key value => retrieve_false_of_not_stored h (wf_new hN hlt) (not_stored_new N key) value⟩

theorem insertAll_refines [DecidableEq K] (h : K → Nat) {N : Nat} :
    ∀ (kvs : List (K × V)) (t : HashTable K V) (m : List (K × V)), Agrees h N t m →
      ∃ t', insertAll h t kvs = .ok ((refInsertAll N m kvs).1, t') ∧
        Agrees h N t' (refInsertAll N m kvs).2 := by
  intro kvs
  induction kvs with
  | nil => intro t m ha; exact ⟨t, rfl, ha⟩
  | cons kv rest ih =>
    intro t m ha
    obtain ⟨t1, h1, ha1⟩ := insert_refines h ha kv.1 kv.2
    obtain ⟨t', h2, ha'⟩ := ih t1 _ ha1
    exact ⟨t', insertAll_cons h h1 h2, ha'⟩

/-- C20 (insert-only refinement of a bounded map): for every capacity
`N ≥ 1`, hash function and finite sequence of `insert` calls on a freshly
constructed table, the calls return the booleans that the reference map
limited to `N` keys returns, `size()` is the number of keys of the reference
map (whose keys are pairwise distinct), and `retrieve(k)` answers as the
reference map does for every key: its value, or not found. -/
theorem insert_only_refinement [DecidableEq K] [Inhabited K] [Inhabited V] (h : K → Nat)
    (N : Nat) (hN : 1 ≤ N) (hlt : N < SIZE_MOD) (kvs : List (K × V)) :
    ∃ t, insertAll h (HashTable.new N) kvs = .ok ((refInsertAll N [] kvs).1, t) ∧
      t.size = (refInsertAll N [] kvs).2.length ∧
      ((refInsertAll N [] kvs).2.map Prod.fst).Nodup ∧
      ∀ k value, retrieve h t k value = .ok (refRetrieve (refInsertAll N [] kvs).2 k value) := by
  obtain ⟨t, h1, ha⟩ := insertAll_refines h kvs (HashTable.new N) [] (agrees_new h hN hlt)
  exact ⟨t, h1, ha.size_eq, ha.nodup, ha.retrieve_eq⟩

theorem insert_only_refinement_witness :
    ∃ t, insertAll (fun n : Nat => n) (HashTable.new 2 : HashTable Nat Nat)
        [(1, 10), (3, 30), (1, 11), (5, 50), (3, 31)]
        = .ok ((refInsertAll 2 [] [(1, 10), (3, 30), (1, 11), (5, 50), (3, 31)]).1, t) ∧
      t.size = (refInsertAll 2 [] [(1, 10), (3, 30), (1, 11), (5, 50), (3, 31)]).2.length ∧
      ((refInsertAll 2 [] [(1, 10), (3, 30), (1, 11), (5, 50), (3, 31)]).2.map Prod.fst).Nodup ∧
      ∀ k value, retrieve (fun n : Nat => n) t k value = .ok
        (refRetrieve (refInsertAll 2 [] [(1, 10), (3, 30), (1, 11), (5, 50), (3, 31)]).2 k value) :=
  insert_only_refinement (fun n : Nat => n) 2 (by decide) (by decide)
    [(1, 10), (3, 30), (1, 11), (5, 50), (3, 31)]

end HashTable
